import Mathlib

/-!
Verification of the Königsberg trail-enumeration library.

This file gives a shallow embedding, in Lean 4, of the core of
`koenigsberg_lib.py`: the validation of the two input dictionaries
(`_sanity_check_dicts`), their normalization to integer identifiers
(`normalize_dicts`), the recursive backtracking enumerator (`_solve_from`,
`solve_from`, `solve_from_multiple`), the exhausted-prefix memoizer
(`path_is_pruned`, the dead-end bookkeeping of `_solve_from`, and
`do_prune_exhausted_paths_list`), and the checkpoint loader
(`do_load_progress`).

Modelling conventions:
* Hashable Python labels are modelled as natural numbers, whose order plays
  the role of the order used by Python's `sorted`.
* A Python `dict` is modelled as an association list `List (Nat × ...)` in
  insertion order; lookup finds the first matching key.  Key sets of real
  dicts are duplicate-free, which appears as `Nodup` hypotheses.
* A Python `set` of byte strings is modelled as a duplicate-free list in
  insertion order; `setAdd` is `set.add`.
* The shared `bytearray` buffer is threaded explicitly: the enumerator
  returns the list of yielded solutions together with either the final
  buffer and global state (normal completion) or the raised exception
  together with the buffer and global state at the moment the exception
  escaped (Python leaves the shared objects in exactly that state).
* `checkpoint_path` is `None` throughout (the module default), so `do_save`
  returns immediately and is modelled as a no-op; `log_it` only prints.
* Recursion in `_solve_from` deepens by exactly one per call and a call at
  depth `n` only recurses after successfully writing to index `n` of the
  buffer, so the recursion depth is bounded by `buf.length + 1`; the `fuel`
  argument makes this bound explicit and the top-level entry points supply
  `paths_to_nodes.length + 1`, which is never exhausted.
-/

namespace Koenigsberg

/-- Python dict subscription `d[k]` on an association list: first match wins;
a missing key is a `KeyError` (reported by the caller). -/
def alookup {α : Type} : List (Nat × α) → Nat → Option α
  | [], _ => none
  | (k, v) :: rest, key => if k = key then some v else alookup rest key

/-- The keys of a dict, in insertion order. -/
def keys {α : Type} (d : List (Nat × α)) : List Nat := d.map Prod.fst

/-- The values of a dict, in insertion order. -/
def values {α : Type} (d : List (Nat × α)) : List α := d.map Prod.snd

/-- `util.flatten_list` applied to the values of one of the graph dicts:
one level of flattening (each value is a list of atoms). -/
def flatten_list (ls : List (List Nat)) : List Nat := ls.flatten

/-- Python's `sorted` on a list of integers (ascending). -/
def sortNats (l : List Nat) : List Nat := l.insertionSort (· ≤ ·)

/-- The comparison key of `sorted(..., key=len)`. -/
def lenLE (a b : List Nat) : Prop := a.length ≤ b.length

instance : IsTotal (List Nat) lenLE := ⟨fun a b => Nat.le_total a.length b.length⟩

instance : IsTrans (List Nat) lenLE := ⟨fun _ _ _ h1 h2 => Nat.le_trans h1 h2⟩

instance : DecidableRel lenLE := fun _ _ => Nat.decLe _ _

/-- Python's `sorted(..., key=len)` used by `do_prune_exhausted_paths_list`:
a stable sort by ascending length. -/
def sortByLen (l : List (List Nat)) : List (List Nat) :=
  l.insertionSort lenLE

/-- `set.add` on a Python set modelled as a duplicate-free list. -/
def setAdd (s : List (List Nat)) (x : List Nat) : List (List Nat) :=
  if x ∈ s then s else s ++ [x]

/-- `bytes([s for s in steps_taken if s])`: drop the zero bytes. -/
def trimZeros (buf : List Nat) : List Nat := buf.filter (fun b => b != 0)

/-- `len([node for node in path if node])`: the number of nonzero bytes. -/
def nonzeroCount (buf : List Nat) : Nat := (trimZeros buf).length

/-- The exceptions and validation failures the embedded code can signal.
The sanity-check constructors stand for the distinct `assert` messages of
`_sanity_check_dicts` (each is re-raised as a `ValueError`); the spec's
taxonomy calls the 255-path bound a `CapacityError`, hence `capacityError`
for the `len(paths_to_nodes.keys()) <= 255` assertion.  `keyError`,
`indexError` and `valueError` are the corresponding Python exceptions, and
`fuelOut` is the (unreachable at the entry points) exhaustion of the
explicit recursion-depth bound. -/
inductive Err where
  | capacityError
  | pathNotInNodes
  | nodeNotInPaths
  | pathNotTwoNodes
  | nodeNotAKey
  | pathNotAKey
  | keyError
  | indexError
  | valueError
  | fuelOut
  deriving DecidableEq, Repr

/-- The module-level mutable globals that the enumerator and memoizer share:
`exhausted_paths` (`None` or a set), `paths_length_at_last_prune`,
`total_paths_exhausted_num`, the configured pruning threshold
`exhausted_paths_prune_threshold`, and `solutions`. -/
structure KState where
  exhausted : Option (List (List Nat))
  pathsLengthAtLastPrune : Nat
  totalPathsExhaustedNum : Nat
  exhaustedPathsPruneThreshold : Nat
  solutions : List (List Nat)
  deriving DecidableEq, Repr

/-- A fresh global state: no solutions, no dead ends, and the memoizer either
disabled (`none`) or starting from a given set, with a given prune threshold. -/
def initState (exh : Option (List (List Nat))) (threshold : Nat) : KState :=
  { exhausted := exh
    pathsLengthAtLastPrune := 0
    totalPathsExhaustedNum := 0
    exhaustedPathsPruneThreshold := threshold
    solutions := [] }

/-- `path_is_pruned`: true when some nonempty prefix of the nonzero part of
the buffer is in the exhausted set.  `if not exhausted_paths: return False`
covers both `None` and the empty set. -/
def path_is_pruned (exh : Option (List (List Nat))) (path : List Nat) : Bool :=
  match exh with
  | none => false
  | some E =>
    if E.isEmpty then false
    else (List.range (nonzeroCount path)).any (fun i => E.contains (path.take (i + 1)))

/-- The truthiness test `not exhausted_paths` at the recursion guard of
`_solve_from` (line `if (not exhausted_paths) or (not path_is_pruned(...))`). -/
def truthyExhausted : Option (List (List Nat)) → Bool
  | none => false
  | some E => !E.isEmpty

/-- The body of `do_prune_exhausted_paths_list`: scan the members in
ascending length and keep a member only when none of its slices `p[:length]`
for `length` in `range(1 + len(p))` is among the already-kept members.
Members of equal length never interact (neither can be a slice of the other
in a duplicate-free set), so any sort by ascending length gives the same
result set as Python's stable `sorted(..., key=len)`. -/
def prunedPathsList (E : List (List Nat)) : List (List Nat) :=
  (sortByLen E).foldl
    (fun acc p =>
      if (List.range (p.length + 1)).any (fun l => acc.contains (p.take l)) then acc
      else acc ++ [p])
    []

/-- `do_prune_exhausted_paths_list` as a transformer of the global state:
`if not exhausted_paths: return` (covering `None` and the empty set),
otherwise replace `exhausted_paths` by the pruned set and record its size in
`paths_length_at_last_prune`. -/
def do_prune_exhausted_paths_list (st : KState) : KState :=
  match st.exhausted with
  | none => st
  | some E =>
    if E.isEmpty then st
    else
      { st with
        exhausted := some (prunedPathsList E)
        pathsLengthAtLastPrune := (prunedPathsList E).length }

/-- The dead-end branch of `_solve_from`: increment
`total_paths_exhausted_num` unconditionally; if the exhausted set is being
tracked, add the trimmed buffer and compact when the set has grown past
`exhausted_paths_prune_threshold + paths_length_at_last_prune`.  The logging
calls print only, and `do_save` returns immediately because no checkpoint
path is configured. -/
def deadEndUpdate (st : KState) (buf : List Nat) : KState :=
  let st1 := { st with totalPathsExhaustedNum := st.totalPathsExhaustedNum + 1 }
  match st1.exhausted with
  | none => st1
  | some E =>
    let E' := setAdd E (trimZeros buf)
    let st2 := { st1 with exhausted := some E' }
    if st2.exhaustedPathsPruneThreshold + st2.pathsLengthAtLastPrune < E'.length then
      do_prune_exhausted_paths_list st2
    else st2

/-- `steps_taken[i] = v` on a bytearray: `IndexError` when the index is out
of range, `ValueError` when the value does not fit in a byte. -/
def bytearray_set (buf : List Nat) (i v : Nat) : Except Err (List Nat) :=
  if i < buf.length then
    if v < 256 then .ok (buf.set i v) else .error .valueError
  else .error .indexError

/-- The outcome of running (a part of) the generator to completion: the list
of yielded solutions, together with either the final buffer and global state
or the escaped exception with the buffer and global state at that moment. -/
abbrev SolveResult :=
  List (List Nat) × Except (Err × List Nat × KState) (List Nat × KState)

/-- The `for next_path in sorted(next_steps)` loop of `_solve_from`,
abstracted over the recursive call `recur` (which receives the next
location, the updated buffer, the next depth and the current global state).
Per iteration: compute `next_loc` as the first endpoint of the candidate
edge different from the current node (`IndexError` when there is none),
write the edge id into the buffer slot, recurse unless the memoizer is
truthy and reports the written prefix as pruned, then zero the slot.  An
escaped exception aborts the loop, keeping the solutions yielded so far and
leaving the buffer as it was when the exception escaped. -/
def solveLoopF (recur : Nat → List Nat → Nat → KState → SolveResult)
    (ptn : List (Nat × List Nat)) (start : Nat) :
    List Nat → List Nat → Nat → KState → SolveResult
  | [], buf, _, st => ([], .ok (buf, st))
  | next_path :: rest, buf, n, st =>
    match alookup ptn next_path with
    | none => ([], .error (.keyError, buf, st))
    | some nodes =>
      match (nodes.filter (fun p => p != start)).head? with
      | none => ([], .error (.indexError, buf, st))
      | some next_loc =>
        match bytearray_set buf n next_path with
        | .error e => ([], .error (e, buf, st))
        | .ok buf1 =>
          let r : SolveResult :=
            if truthyExhausted st.exhausted && path_is_pruned st.exhausted buf1 then
              ([], .ok (buf1, st))
            else recur next_loc buf1 (n + 1) st
          match r with
          | (ys, .error e) => (ys, .error e)
          | (ys, .ok (buf2, st2)) =>
            match bytearray_set buf2 n 0 with
            | .error e => (ys, .error (e, buf2, st2))
            | .ok buf3 =>
              let r2 := solveLoopF recur ptn start rest buf3 n st2
              (ys ++ r2.1, r2.2)

/-- `_solve_from`: at depth `len(paths_to_nodes)` record and yield the
trimmed buffer as a solution; otherwise compute the incident edges not yet
in the buffer, and either iterate over them in ascending order (see
`solveLoopF`) or, when there are none, perform the dead-end bookkeeping. -/
def solveFromAux (ptn ntp : List (Nat × List Nat)) :
    Nat → Nat → List Nat → Nat → KState → SolveResult
  | 0, _, buf, _, st => ([], .error (.fuelOut, buf, st))
  | fuel + 1, start, buf, n, st =>
    if n = ptn.length then
      let sol := trimZeros buf
      ([sol], .ok (buf, { st with solutions := setAdd st.solutions sol }))
    else
      match alookup ntp start with
      | none => ([], .error (.keyError, buf, st))
      | some paths =>
        let next_steps := paths.filter (fun p => !buf.contains p)
        if next_steps.isEmpty then
          ([], .ok (buf, deadEndUpdate st buf))
        else
          solveLoopF (fun s b k s2 => solveFromAux ptn ntp fuel s b k s2)
            ptn start (sortNats next_steps) buf n st

/-- `solve_from`: allocate a zero-filled buffer of length
`len(paths_to_nodes)` and run `_solve_from` at depth 0. -/
def solve_from (ptn ntp : List (Nat × List Nat)) (start : Nat) (st : KState) :
    SolveResult :=
  solveFromAux ptn ntp (ptn.length + 1) start (List.replicate ptn.length 0) 0 st

/-- The loop of `solve_from_multiple`: one shared buffer, one run of
`_solve_from` per start node, concatenating the yields; an escaped
exception aborts the remaining starts. -/
def solveMultipleAux (ptn ntp : List (Nat × List Nat)) :
    List Nat → List Nat → KState → SolveResult
  | [], buf, st => ([], .ok (buf, st))
  | s :: rest, buf, st =>
    let r := solveFromAux ptn ntp (ptn.length + 1) s buf 0 st
    match r with
    | (ys, .error e) => (ys, .error e)
    | (ys, .ok (buf1, st1)) =>
      let r2 := solveMultipleAux ptn ntp rest buf1 st1
      (ys ++ r2.1, r2.2)

/-- `solve_from_multiple`: allocate the shared zero-filled buffer and solve
from each start in turn. -/
def solve_from_multiple (ptn ntp : List (Nat × List Nat)) (starts : List Nat)
    (st : KState) : SolveResult :=
  solveMultipleAux ptn ntp starts (List.replicate ptn.length 0) st

/-! ## Validation and normalization -/

/-- `_sanity_check_dicts`, with the checks in source order.  The two
`isinstance(..., Dict)` asserts and the two `isinstance(..., Iterable)`
asserts hold by construction in the typed embedding.  An `.error` stands
for the `ValueError` raised from the first failing assertion:
* `capacityError`: `len(paths_to_nodes.keys()) <= 255` fails;
* `pathNotInNodes`: some path key is not in `flatten_list(nodes_to_paths.values())`;
* `nodeNotInPaths`: some node key is not in `flatten_list(paths_to_nodes.values())`;
* `pathNotTwoNodes`: some path's node list does not have exactly two entries;
* `nodeNotAKey`: some node named in a path's node list is not a key of `nodes_to_paths`;
* `pathNotAKey`: some path named in a node's path list is not a key of `paths_to_nodes`. -/
def sanity_check_dicts (ptn ntp : List (Nat × List Nat)) : Except Err Unit :=
  if ¬ (keys ptn).length ≤ 255 then .error .capacityError
  else if (keys ptn).any (fun p => !(flatten_list (values ntp)).contains p) then
    .error .pathNotInNodes
  else if (keys ntp).any (fun nd => !(flatten_list (values ptn)).contains nd) then
    .error .nodeNotInPaths
  else
    match ptn.findSome? (fun pr =>
        if pr.2.length ≠ 2 then some Err.pathNotTwoNodes
        else if pr.2.any (fun nd => !(keys ntp).contains nd) then some Err.nodeNotAKey
        else none) with
    | some e => .error e
    | none =>
      match ntp.findSome? (fun pr =>
          if pr.2.any (fun p => !(keys ptn).contains p) then some Err.pathNotAKey
          else none) with
      | some e => .error e
      | none => .ok ()

/-- A lookup in one of the two reverse translation tables of
`normalize_dicts`; a missing label is a Python `KeyError`. -/
def lookupNat : List (Nat × Nat) → Nat → Option Nat
  | [], _ => none
  | (k, v) :: rest, key => if k = key then some v else lookupNat rest key

/-- The generator `tuple(... nodes_x_rev[i] for i in node_list)` feeding
`sorted` inside `normalize_dicts`: translate each label through the reverse
table, failing with `KeyError` at the first missing label. -/
def translateList (tab : List (Nat × Nat)) : List Nat → Except Err (List Nat)
  | [] => .ok []
  | v :: rest =>
    match lookupNat tab v with
    | none => .error .keyError
    | some v' =>
      match translateList tab rest with
      | .error e => .error e
      | .ok rest' => .ok (v' :: rest')

/-- One of the two dict-building loops of `normalize_dicts`
(`paths_ret[paths_x_rev[path]] = tuple(sorted(nodes_x_rev[i] for i in node_list))`):
translate the value list through `valTab` and sort it, translate the key
through `keyTab`, in Python's evaluation order (right-hand side first). -/
def translateEntries (keyTab valTab : List (Nat × Nat)) :
    List (Nat × List Nat) → Except Err (List (Nat × List Nat))
  | [] => .ok []
  | (k, vs) :: rest =>
    match translateList valTab vs with
    | .error e => .error e
    | .ok vs' =>
      match lookupNat keyTab k with
      | none => .error .keyError
      | some k' =>
        match translateEntries keyTab valTab rest with
        | .error e => .error e
        | .ok rest' => .ok ((k', sortNats vs') :: rest')

/-- The forward translation tables `paths_x` and `nodes_x`:
`dict(zip(range(1, 256), sorted(d.keys())))`.  `zip` truncates to the
shorter argument, so at most the first 255 sorted labels receive an id. -/
def translationTable (d : List (Nat × List Nat)) : List (Nat × Nat) :=
  (List.range' 1 255).zip (sortNats (keys d))

/-- `{value: key for key, value in table.items()}`. -/
def reverseTable (tab : List (Nat × Nat)) : List (Nat × Nat) :=
  tab.map (fun p => (p.2, p.1))

/-- `normalize_dicts` with `raise_error=True`: run `_sanity_check_dicts`
(whose `ValueError` propagates), build the four translation tables, and
translate both dicts to integer ids, sorting each translated value tuple.
Returns the 6-tuple of the source. -/
def normalize_dicts (ptn ntp : List (Nat × List Nat)) :
    Except Err (List (Nat × List Nat) × List (Nat × List Nat) ×
      List (Nat × Nat) × List (Nat × Nat) × List (Nat × Nat) × List (Nat × Nat)) :=
  match sanity_check_dicts ptn ntp with
  | .error e => .error e
  | .ok _ =>
    let paths_x := translationTable ptn
    let nodes_x := translationTable ntp
    let paths_x_rev := reverseTable paths_x
    let nodes_x_rev := reverseTable nodes_x
    match translateEntries paths_x_rev nodes_x_rev ptn with
    | .error e => .error e
    | .ok paths_ret =>
      match translateEntries nodes_x_rev paths_x_rev ntp with
      | .error e => .error e
      | .ok nodes_ret =>
        .ok (paths_ret, nodes_ret, paths_x, nodes_x, paths_x_rev, nodes_x_rev)

/-- Translating a list of ids back through a forward translation table;
`none` when some id has no table entry. -/
def backList (tab : List (Nat × Nat)) : List Nat → Option (List Nat)
  | [] => some []
  | v :: rest =>
    match lookupNat tab v with
    | none => none
    | some v' =>
      match backList tab rest with
      | none => none
      | some rest' => some (v' :: rest')

/-- Translating a normalized dict back to the original labels through the
returned forward translation tables (key ids through `keyTab`, value ids
through `valTab`); `none` when some id has no table entry. -/
def translate_dict_back (keyTab valTab : List (Nat × Nat)) :
    List (Nat × List Nat) → Option (List (Nat × List Nat))
  | [] => some []
  | (k, vs) :: rest =>
    match lookupNat keyTab k with
    | none => none
    | some k' =>
      match backList valTab vs with
      | none => none
      | some vs' =>
        match translate_dict_back keyTab valTab rest with
        | none => none
        | some rest' => some ((k', vs') :: rest')

/-! ## Checkpoint manager -/

/-- The unpickled content of a checkpoint file.  `do_save` writes a dict
with the four fields `'solutions'`, `'exhausted_paths'`, `'num_exhausted'`
and `'total_time'` (elapsed time abstracted to a natural number), but the
loader cannot assume they are present: a field is `none` when the record
read from disk lacks the key, in which case subscripting it raises an
uncaught `KeyError`. -/
structure CheckpointData where
  solutions : Option (List (List Nat))
  exhausted_paths : Option (Option (List (List Nat)))
  num_exhausted : Option Nat
  total_time : Option Nat
  deriving DecidableEq, Repr

/-- The module globals `do_load_progress` assigns: `solutions`,
`exhausted_paths`, `total_paths_exhausted_num`, and `run_start` (the latter
represented by the elapsed time it encodes: after
`run_start = time.monotonic() - data['total_time']` the elapsed time of the
run is `data['total_time']`). -/
structure ProgressState where
  solutions : List (List Nat)
  exhausted_paths : Option (List (List Nat))
  total_paths_exhausted_num : Nat
  elapsed : Nat
  deriving DecidableEq, Repr

/-- The values the globals of `koenigsberg_lib` hold at startup:
`solutions = set()`, `exhausted_paths = None`,
`total_paths_exhausted_num = 0`, and no elapsed time. -/
def initialGlobals : ProgressState :=
  { solutions := [], exhausted_paths := none, total_paths_exhausted_num := 0, elapsed := 0 }

/-- The exceptions `bz2.open`/`pickle.load` can raise inside the `try` of
`do_load_progress` before any global is assigned: `IOError` (`OSError`)
while opening or reading the file, `pickle.PickleError` while
deserializing, and `EOFError` from a truncated or empty stream.  Only the
first two are named in the `except (IOError, pickle.PickleError)` clause;
`EOFError` is a subclass of neither and escapes uncaught. -/
inductive LoadFailure where
  | ioError
  | pickleError
  | eofError
  deriving DecidableEq, Repr

/-- The outcome of `bz2.open(...)` + `pickle.load(...)`: an exception, or a
loaded record. -/
inductive ReadOutcome where
  | raised (e : LoadFailure)
  | loaded (d : CheckpointData)
  deriving DecidableEq, Repr

/-- An exception escaping `do_load_progress` uncaught (fatal to the run):
`EOFError` from the read, or `KeyError` from subscripting a record that
lacks one of the four fields. -/
inductive LoadEscape where
  | eofError
  | keyError
  deriving DecidableEq, Repr

/-- The set of prefixes currently recorded by the memoizer: empty when
`exhausted_paths` is `None` (nothing is tracked). -/
def recordedExhausted (st : ProgressState) : List (List Nat) :=
  st.exhausted_paths.getD []

/-- `do_load_progress`, parameterized by the outcome of reading and
unpickling the checkpoint file.  `IOError` and `pickle.PickleError` are
caught: a warning is printed and the function returns with every global at
its prior value.  `EOFError` is not caught and propagates with the globals
untouched.  On a loaded record the four globals are assigned one at a time
in source order (`solutions`, `exhausted_paths`, `total_paths_exhausted_num`,
`run_start`), each `data['...']` subscription evaluated just before its
assignment; a missing key raises an uncaught `KeyError` that escapes with
the globals assigned so far, so the escaping state can be partially
updated. -/
def do_load_progress (prior : ProgressState) :
    ReadOutcome → Except (LoadEscape × ProgressState) ProgressState
  | .raised .ioError => .ok prior
  | .raised .pickleError => .ok prior
  | .raised .eofError => .error (.eofError, prior)
  | .loaded d =>
    match d.solutions with
    | none => .error (.keyError, prior)
    | some sols =>
      let st1 := { prior with solutions := sols }
      match d.exhausted_paths with
      | none => .error (.keyError, st1)
      | some exh =>
        let st2 := { st1 with exhausted_paths := exh }
        match d.num_exhausted with
        | none => .error (.keyError, st2)
        | some cnt =>
          let st3 := { st2 with total_paths_exhausted_num := cnt }
          match d.total_time with
          | none => .error (.keyError, st3)
          | some t => .ok { st3 with elapsed := t }

/-! ## Walks implied by a step sequence -/

/-- The other endpoint the enumerator moves to when taking edge `e` from
node `v`: `[p for p in paths_to_nodes[e] if p != v][0]`. -/
def otherEnd (ptn : List (Nat × List Nat)) (v e : Nat) : Option Nat :=
  match alookup ptn e with
  | none => none
  | some es => (es.filter (fun p => p != v)).head?

/-- The edge sequences the enumerator can produce from node `v`: each edge
is incident to the current node according to `nodes_to_paths`, and the walk
continues at the first listed endpoint different from the current node. -/
inductive WalkFrom (ptn ntp : List (Nat × List Nat)) : Nat → List Nat → Prop
  | nil (v : Nat) : WalkFrom ptn ntp v []
  | cons {v e w : Nat} {es : List Nat}
      (hinc : ∃ ps, alookup ntp v = some ps ∧ e ∈ ps)
      (hnext : otherEnd ptn v e = some w)
      (hrest : WalkFrom ptn ntp w es) : WalkFrom ptn ntp v (e :: es)

/-- `vs` is the node sequence of the trail `sol`: one node more than edges,
and the `i`-th edge's endpoint list contains both the `i`-th and the
`(i+1)`-st node. -/
def IsNodeWalk (ptn : List (Nat × List Nat)) (vs sol : List Nat) : Prop :=
  vs.length = sol.length + 1 ∧
  ∀ i : Nat, ∀ h : i < sol.length, ∃ es,
    alookup ptn (sol.get ⟨i, h⟩) = some es ∧
    vs.getD i 0 ∈ es ∧
    vs.getD (i + 1) 0 ∈ es

/-- `a` is a prefix of `b` (not necessarily proper). -/
def IsPrefixOf (a b : List Nat) : Prop := ∃ t, a ++ t = b

/-! ## Basic lemmas -/

theorem alookup_isSome_of_mem {α : Type} {d : List (Nat × α)} {k : Nat}
    (h : k ∈ keys d) : ∃ v, alookup d k = some v := by
  induction d with
  | nil => simp [keys] at h
  | cons hd tl ih =>
    by_cases hk : hd.1 = k
    · exact ⟨hd.2, by simp [alookup, hk]⟩
    · have : k ∈ keys tl := by
        rcases List.mem_map.mp h with ⟨pr, hpr, hprk⟩
        rcases List.mem_cons.mp hpr with h1 | h1
        · exact absurd (h1 ▸ hprk) hk
        · exact List.mem_map.mpr ⟨pr, h1, hprk⟩
      rcases ih this with ⟨v, hv⟩
      exact ⟨v, by simpa [alookup, hk] using hv⟩

theorem alookup_mem {α : Type} {d : List (Nat × α)} {k : Nat} {v : α}
    (h : alookup d k = some v) : (k, v) ∈ d := by
  induction d with
  | nil => simp [alookup] at h
  | cons hd tl ih =>
    rcases hd with ⟨a, b⟩
    by_cases hk : a = k
    · subst hk
      simp only [alookup, if_pos rfl] at h
      injection h with h
      subst h
      exact List.mem_cons_self _ _
    · simp only [alookup, if_neg hk] at h
      exact List.mem_cons_of_mem _ (ih h)

theorem mem_setAdd {s : List (List Nat)} {x y : List Nat} :
    y ∈ setAdd s x ↔ y ∈ s ∨ y = x := by
  unfold setAdd
  by_cases hx : x ∈ s
  · simp only [if_pos hx]
    constructor
    · exact Or.inl
    · rintro (h | rfl)
      · exact h
      · exact hx
  · simp [if_neg hx]

/-! ## Pruning: `do_prune_exhausted_paths_list` -/

/-- The per-member step of the pruning fold. -/
def pruneStep (acc : List (List Nat)) (p : List Nat) : List (List Nat) :=
  if (List.range (p.length + 1)).any (fun l => acc.contains (p.take l)) then acc
  else acc ++ [p]

theorem prunedPathsList_eq_fold (E : List (List Nat)) :
    prunedPathsList E = (sortByLen E).foldl pruneStep [] := rfl

theorem pruneStep_pos {acc : List (List Nat)} {p : List Nat}
    (hc : (List.range (p.length + 1)).any (fun l => acc.contains (p.take l)) = true) :
    pruneStep acc p = acc := by
  unfold pruneStep
  rw [if_pos hc]

theorem pruneStep_neg {acc : List (List Nat)} {p : List Nat}
    (hc : ¬ (List.range (p.length + 1)).any (fun l => acc.contains (p.take l)) = true) :
    pruneStep acc p = acc ++ [p] := by
  unfold pruneStep
  rw [if_neg hc]

theorem mem_foldl_pruneStep_of_mem_acc {l : List (List Nat)} :
    ∀ {acc : List (List Nat)} {x : List Nat}, x ∈ acc → x ∈ l.foldl pruneStep acc := by
  induction l with
  | nil => intro acc x h; simpa using h
  | cons q rest ih =>
    intro acc x h
    apply ih
    by_cases hc : (List.range (q.length + 1)).any (fun l => acc.contains (q.take l)) = true
    · rw [pruneStep_pos hc]; exact h
    · rw [pruneStep_neg hc]
      exact List.mem_append_left _ h

theorem mem_foldl_pruneStep {l : List (List Nat)} :
    ∀ {acc : List (List Nat)} {x : List Nat}, x ∈ l.foldl pruneStep acc →
      x ∈ acc ∨ x ∈ l := by
  induction l with
  | nil => intro acc x h; exact Or.inl (by simpa using h)
  | cons q rest ih =>
    intro acc x h
    rcases ih h with h1 | h1
    · by_cases hc : (List.range (q.length + 1)).any (fun l => acc.contains (q.take l)) = true
      · rw [pruneStep_pos hc] at h1
        exact Or.inl h1
      · rw [pruneStep_neg hc] at h1
        rcases List.mem_append.mp h1 with h2 | h2
        · exact Or.inl h2
        · simp only [List.mem_singleton] at h2
          exact Or.inr (h2 ▸ List.mem_cons_self _ _)
    · exact Or.inr (List.mem_cons_of_mem _ h1)

theorem prunedPathsList_subset {E : List (List Nat)} {x : List Nat}
    (h : x ∈ prunedPathsList E) : x ∈ E := by
  rw [prunedPathsList_eq_fold] at h
  rcases mem_foldl_pruneStep h with h1 | h1
  · simp at h1
  · have : List.Perm (sortByLen E) E := List.perm_insertionSort _ E
    exact this.mem_iff.mp h1

theorem subset_pruneStep {acc : List (List Nat)} {q x : List Nat}
    (h : x ∈ acc) : x ∈ pruneStep acc q := by
  by_cases hc : (List.range (q.length + 1)).any (fun l => acc.contains (q.take l)) = true
  · rw [pruneStep_pos hc]; exact h
  · rw [pruneStep_neg hc]
    exact List.mem_append_left _ h

theorem take_isPrefixOf (p : List Nat) (i : Nat) : IsPrefixOf (p.take i) p :=
  ⟨p.drop i, p.take_append_drop i⟩

theorem isPrefixOf_take {a q : List Nat} (h : IsPrefixOf a q) :
    q.take a.length = a := by
  rcases h with ⟨t, rfl⟩
  exact List.take_left a t

theorem isPrefixOf_length_le {a q : List Nat} (h : IsPrefixOf a q) :
    a.length ≤ q.length := by
  rcases h with ⟨t, rfl⟩
  simp

theorem isPrefixOf_eq_of_length {a q : List Nat} (h : IsPrefixOf a q)
    (hl : q.length ≤ a.length) : a = q := by
  rcases h with ⟨t, rfl⟩
  have : t = [] := by
    have := List.length_append a t
    exact List.length_eq_zero.mp (by omega)
  simp [this]

/-- The accumulator invariant of the pruning fold: the kept members are
pairwise prefix-free, and every kept member is no longer than any member
still to be scanned. -/
theorem foldl_pruneStep_prefixFree :
    ∀ (l acc : List (List Nat)),
      List.Sorted lenLE l →
      (∀ a ∈ acc, ∀ q ∈ l, a.length ≤ q.length) →
      (∀ a ∈ acc, ∀ b ∈ acc, IsPrefixOf a b → a = b) →
      ∀ a ∈ l.foldl pruneStep acc, ∀ b ∈ l.foldl pruneStep acc,
        IsPrefixOf a b → a = b := by
  intro l
  induction l with
  | nil => intro acc _ _ hfree; simpa using hfree
  | cons q rest ih =>
    intro acc hsort hlen hfree
    have hsort' : List.Sorted lenLE rest := hsort.of_cons
    have hqrest : ∀ r ∈ rest, q.length ≤ r.length := by
      intro r hr
      exact (List.sorted_cons.mp hsort).1 r hr
    simp only [List.foldl_cons]
    by_cases hc : (List.range (q.length + 1)).any (fun l => acc.contains (q.take l)) = true
    · rw [pruneStep_pos hc]
      exact ih acc hsort'
        (fun a ha r hr => hlen a ha r (List.mem_cons_of_mem _ hr)) hfree
    · have hnp : ∀ i ≤ q.length, q.take i ∉ acc := by
        intro i hi hmem
        apply hc
        refine List.any_eq_true.mpr ⟨i, List.mem_range.mpr (by omega), ?_⟩
        exact (List.elem_iff).mpr hmem
      rw [pruneStep_neg hc]
      apply ih (acc ++ [q]) hsort'
      · intro a ha r hr
        rcases List.mem_append.mp ha with h1 | h1
        · exact hlen a h1 r (List.mem_cons_of_mem _ hr)
        · simp only [List.mem_singleton] at h1
          exact h1 ▸ hqrest r hr
      · intro a ha b hb hab
        rcases List.mem_append.mp ha with h1 | h1 <;>
          rcases List.mem_append.mp hb with h2 | h2
        · exact hfree a h1 b h2 hab
        · simp only [List.mem_singleton] at h2
          subst h2
          exfalso
          exact hnp a.length (isPrefixOf_length_le hab)
            (by rw [isPrefixOf_take hab]; exact h1)
        · simp only [List.mem_singleton] at h1
          subst h1
          have hba : b.length ≤ a.length := hlen b h2 a (List.mem_cons_self _ _)
          exact isPrefixOf_eq_of_length hab hba
        · simp only [List.mem_singleton] at h1 h2
          subst h1; subst h2; rfl

/-- A member scanned by the pruning fold but absent from its result has a
proper prefix in the result. -/
theorem foldl_pruneStep_removed :
    ∀ (l acc : List (List Nat)) (p : List Nat),
      p ∈ l → p ∉ l.foldl pruneStep acc →
      ∃ a, a ∈ l.foldl pruneStep acc ∧ IsPrefixOf a p ∧ a ≠ p := by
  intro l
  induction l with
  | nil => intro acc p hp; simp at hp
  | cons q rest ih =>
    intro acc p hp hout
    simp only [List.foldl_cons] at hout ⊢
    rcases List.mem_cons.mp hp with rfl | hp'
    · by_cases hc : (List.range (p.length + 1)).any (fun l => acc.contains (p.take l)) = true
      · rcases List.any_eq_true.mp hc with ⟨i, _, hcon⟩
        refine ⟨p.take i, ?_, take_isPrefixOf p i, ?_⟩
        · exact mem_foldl_pruneStep_of_mem_acc
            (subset_pruneStep ((List.elem_iff).mp hcon))
        · intro hEq
          exact hout (hEq ▸ mem_foldl_pruneStep_of_mem_acc
            (subset_pruneStep ((List.elem_iff).mp hcon)))
      · exfalso
        apply hout
        apply mem_foldl_pruneStep_of_mem_acc
        rw [pruneStep_neg hc]
        exact List.mem_append_right _ (List.mem_singleton.mpr rfl)
    · exact ih (pruneStep acc q) p hp' hout


/-! ## Characterizing acceptance by `_sanity_check_dicts` -/

/-- The per-path check of the first `for` loop of `_sanity_check_dicts`. -/
theorem pathEntryCheck_none_iff (ntp : List (Nat × List Nat)) (pr : Nat × List Nat) :
    ((if pr.2.length ≠ 2 then some Err.pathNotTwoNodes
      else if pr.2.any (fun nd => !(keys ntp).contains nd) then some Err.nodeNotAKey
      else none) = none) ↔
      (pr.2.length = 2 ∧ ∀ nd ∈ pr.2, nd ∈ keys ntp) := by
  simp +contextual [ite_eq_right_iff, List.any_eq_true, not_or]
  split_ifs with h1 h2 <;> simp_all

/-- The per-node check of the second `for` loop of `_sanity_check_dicts`. -/
theorem nodeEntryCheck_none_iff (ptn : List (Nat × List Nat)) (pr : Nat × List Nat) :
    ((if pr.2.any (fun p => !(keys ptn).contains p) then some Err.pathNotAKey
      else none) = none) ↔
      (∀ p ∈ pr.2, p ∈ keys ptn) := by
  simp +contextual [ite_eq_right_iff, List.any_eq_true, not_or]

/-- `_sanity_check_dicts` accepts exactly the inputs satisfying the five
checked properties: at most 255 paths, every path named by some node, every
node named by some path, every path connecting exactly two nodes that are
keys of the node dict, and every node listing only paths that are keys of
the path dict. -/
theorem sanity_check_ok_iff (ptn ntp : List (Nat × List Nat)) :
    sanity_check_dicts ptn ntp = .ok () ↔
      ((keys ptn).length ≤ 255 ∧
       (∀ p ∈ keys ptn, p ∈ flatten_list (values ntp)) ∧
       (∀ nd ∈ keys ntp, nd ∈ flatten_list (values ptn)) ∧
       (∀ pr ∈ ptn, pr.2.length = 2 ∧ ∀ nd ∈ pr.2, nd ∈ keys ntp) ∧
       (∀ pr ∈ ntp, ∀ p ∈ pr.2, p ∈ keys ptn)) := by
  constructor
  · intro h
    unfold sanity_check_dicts at h
    split_ifs at h with h1 h2 h3
    split at h
    next e heq => cases h
    next heq =>
      split at h
      next e heq2 => cases h
      next heq2 =>
        have hfirst : (∀ p ∈ keys ptn, p ∈ flatten_list (values ntp)) := by
          intro p hmem
          by_contra hnot
          apply h2
          refine List.any_eq_true.mpr ⟨p, hmem, ?_⟩
          simp [hnot]
        have hsecond : (∀ nd ∈ keys ntp, nd ∈ flatten_list (values ptn)) := by
          intro nd hmem
          by_contra hnot
          apply h3
          refine List.any_eq_true.mpr ⟨nd, hmem, ?_⟩
          simp [hnot]
        refine ⟨h1, hfirst, hsecond, ?_, ?_⟩
        · intro pr hpr
          exact (pathEntryCheck_none_iff ntp pr).mp
            (List.findSome?_eq_none_iff.mp heq pr hpr)
        · intro pr hpr
          exact (nodeEntryCheck_none_iff ptn pr).mp
            (List.findSome?_eq_none_iff.mp heq2 pr hpr)
  · rintro ⟨h1, hfirst, hsecond, hpaths, hnodes⟩
    unfold sanity_check_dicts
    rw [if_neg (by omega)]
    rw [if_neg (by
      intro hany
      rcases List.any_eq_true.mp hany with ⟨p, hmem, hp⟩
      simp only [Bool.not_eq_eq_eq_not, Bool.not_true] at hp
      have hmm := hfirst p hmem
      rw [← List.elem_iff] at hmm
      simp only [List.contains] at hp
      rw [hmm] at hp
      cases hp)]
    rw [if_neg (by
      intro hany
      rcases List.any_eq_true.mp hany with ⟨nd, hmem, hnd⟩
      simp only [Bool.not_eq_eq_eq_not, Bool.not_true] at hnd
      have hmm := hsecond nd hmem
      rw [← List.elem_iff] at hmm
      simp only [List.contains] at hnd
      rw [hmm] at hnd
      cases hnd)]
    rw [List.findSome?_eq_none_iff.mpr
      (fun pr hpr => (pathEntryCheck_none_iff ntp pr).mpr (hpaths pr hpr))]
    rw [List.findSome?_eq_none_iff.mpr
      (fun pr hpr => (nodeEntryCheck_none_iff ptn pr).mpr (hnodes pr hpr))]

/-! ## Concrete inputs used by the claim theorems -/

/-- The edge labels 1..255. -/
def edges255 : List Nat := (List.range 255).map (· + 1)

/-- A valid map with exactly 255 paths: 255 parallel edges between the two
nodes 1 and 2. -/
def exPtn255 : List (Nat × List Nat) := (List.range 255).map (fun i => (i + 1, [1, 2]))

/-- The node dict of `exPtn255`: both nodes list all 255 edges. -/
def exNtp255 : List (Nat × List Nat) := [(1, edges255), (2, edges255)]

/-- A map with 256 paths. -/
def exPtn256 : List (Nat × List Nat) := (List.range 256).map (fun i => (i + 1, [1, 2]))

/-! ## C5: the capacity boundary -/

/-- C5: validation accepts a map with exactly 255 paths (the other checks
passing), and any map with 256 paths is rejected with the capacity error,
which is fatal to `normalize_dicts` (it propagates before any translation
or search is attempted). -/
theorem claim_C5_capacity_boundary :
    (∀ ptn ntp : List (Nat × List Nat), (keys ptn).length = 256 →
       sanity_check_dicts ptn ntp = .error .capacityError ∧
       normalize_dicts ptn ntp = .error .capacityError) ∧
    sanity_check_dicts exPtn255 exNtp255 = .ok () := by
  constructor
  · intro ptn ntp hlen
    have hsan : sanity_check_dicts ptn ntp = .error .capacityError := by
      unfold sanity_check_dicts
      rw [if_pos (by omega)]
    refine ⟨hsan, ?_⟩
    unfold normalize_dicts
    rw [hsan]
  · rw [sanity_check_ok_iff]
    refine ⟨?_, ?_, ?_, ?_, ?_⟩
    · simp [exPtn255, keys]
    · intro p hp
      simp only [exPtn255, keys, List.map_map, List.mem_map, Function.comp,
        List.mem_range] at hp
      rcases hp with ⟨i, hi, rfl⟩
      simp only [exNtp255, values, flatten_list, edges255]
      simp only [List.map_cons, List.map_nil, List.flatten, List.mem_append,
        List.mem_map, List.mem_range]
      left
      exact ⟨i, hi, rfl⟩
    · intro nd hnd
      simp only [exNtp255, keys] at hnd
      simp only [List.map_cons, List.map_nil, List.mem_cons,
        List.not_mem_nil, or_false] at hnd
      simp only [exPtn255, values, flatten_list, List.map_map]
      rw [List.mem_flatten]
      refine ⟨[1, 2], ?_, ?_⟩
      · refine List.mem_map.mpr ⟨0, by simp, rfl⟩
      · rcases hnd with rfl | rfl <;> simp
    · intro pr hpr
      simp only [exPtn255, List.mem_map, List.mem_range] at hpr
      rcases hpr with ⟨i, hi, rfl⟩
      refine ⟨rfl, ?_⟩
      intro nd hnd
      simp only [List.mem_cons, List.not_mem_nil, or_false] at hnd
      simp only [exNtp255, keys, List.map_cons, List.map_nil, List.mem_cons,
        List.not_mem_nil, or_false]
      rcases hnd with rfl | rfl <;> simp
    · intro pr hpr
      simp only [exNtp255, List.mem_cons, List.not_mem_nil, or_false] at hpr
      have hpr2 : pr.2 = edges255 := by
        rcases hpr with rfl | rfl <;> rfl
      rw [hpr2]
      intro p hp
      simp only [edges255, List.mem_map, List.mem_range] at hp
      rcases hp with ⟨i, hi, rfl⟩
      simp only [exPtn255, keys, List.map_map, List.mem_map, Function.comp,
        List.mem_range]
      exact ⟨i, hi, rfl⟩

theorem claim_C5_witness :
    sanity_check_dicts exPtn256 exNtp255 = .error .capacityError ∧
    normalize_dicts exPtn256 exNtp255 = .error .capacityError :=
  claim_C5_capacity_boundary.1 exPtn256 exNtp255 (by simp [exPtn256, keys])

/-! ## C6: the pruned exhausted set is a minimal generating set -/

/-- C6: after `do_prune_exhausted_paths_list` returns with a tracked set, no
member of the resulting exhausted set has a proper prefix that is also a
member, and every member removed by the pruning has a proper prefix among
the retained members. -/
theorem claim_C6_prune_minimal (st : KState) (E : List (List Nat))
    (hE : st.exhausted = some E) (E' : List (List Nat))
    (hE' : (do_prune_exhausted_paths_list st).exhausted = some E') :
    (∀ a ∈ E', ∀ b ∈ E', IsPrefixOf a b → a = b) ∧
    (∀ p ∈ E, p ∉ E' → ∃ a ∈ E', IsPrefixOf a p ∧ a ≠ p) := by
  unfold do_prune_exhausted_paths_list at hE'
  rw [hE] at hE'
  by_cases hemp : E.isEmpty
  · simp only [hemp, if_true] at hE'
    rw [hE] at hE'
    injection hE' with hE'
    subst hE'
    constructor
    · intro a ha b hb hab
      rw [List.isEmpty_iff] at hemp
      subst hemp
      cases ha
    · intro p hp
      rw [List.isEmpty_iff] at hemp
      subst hemp
      cases hp
  · simp only [hemp, if_false] at hE'
    injection hE' with hE'
    subst hE'
    constructor
    · rw [prunedPathsList_eq_fold]
      exact foldl_pruneStep_prefixFree (sortByLen E) []
        (List.sorted_insertionSort lenLE E) (by intro a ha; cases ha)
        (by intro a ha; cases ha)
    · intro p hp hnot
      have hp' : p ∈ sortByLen E := (List.perm_insertionSort lenLE E).mem_iff.mpr hp
      rw [prunedPathsList_eq_fold] at hnot ⊢
      rcases foldl_pruneStep_removed (sortByLen E) [] p hp' hnot with ⟨a, ha, hpre, hne⟩
      exact ⟨a, ha, hpre, hne⟩

/-- An exhausted set for the C6 and C10 witnesses. -/
def stC6 : KState :=
  { exhausted := some [[1], [1, 2]]
    pathsLengthAtLastPrune := 0
    totalPathsExhaustedNum := 3
    exhaustedPathsPruneThreshold := 7
    solutions := [[2, 1]] }

theorem claim_C6_witness :
    (∀ a ∈ [[1]], ∀ b ∈ ([[1]] : List (List Nat)), IsPrefixOf a b → a = b) ∧
    (∀ p ∈ [[1], [1, 2]], p ∉ ([[1]] : List (List Nat)) →
      ∃ a ∈ ([[1]] : List (List Nat)), IsPrefixOf a p ∧ a ≠ p) :=
  claim_C6_prune_minimal stC6 [[1], [1, 2]] rfl [[1]] (by decide)

/-! ## C7: which load failures are non-fatal -/

/-- C7 (amended): when reading or deserializing the checkpoint fails with
one of the two failures actually named in the `except` clause (`IOError`,
`pickle.PickleError`), `do_load_progress` returns non-fatally and every
global keeps its startup value: no solutions, no recorded exhausted
prefixes, a zero dead-end counter and zero elapsed time.  The original
"any I/O or deserialization failure" is refuted by the counterexample:
`EOFError` from a truncated stream and `KeyError` from a record missing a
field escape the `except` clause and abort the run, the latter possibly
after partially assigning the globals. -/
theorem claim_C7_caught_load_failure_empty_state (e : LoadFailure)
    (hcaught : e = .ioError ∨ e = .pickleError) :
    do_load_progress initialGlobals (.raised e) = .ok initialGlobals ∧
    initialGlobals.solutions = [] ∧
    recordedExhausted initialGlobals = [] ∧
    initialGlobals.total_paths_exhausted_num = 0 ∧
    initialGlobals.elapsed = 0 := by
  rcases hcaught with rfl | rfl <;> exact ⟨rfl, rfl, rfl, rfl, rfl⟩

theorem claim_C7_witness :
    (LoadFailure.ioError = LoadFailure.ioError ∨
      LoadFailure.ioError = LoadFailure.pickleError) ∧
    (do_load_progress initialGlobals (.raised .ioError) = .ok initialGlobals ∧
     initialGlobals.solutions = [] ∧
     recordedExhausted initialGlobals = [] ∧
     initialGlobals.total_paths_exhausted_num = 0 ∧
     initialGlobals.elapsed = 0) :=
  ⟨Or.inl rfl, claim_C7_caught_load_failure_empty_state .ioError (Or.inl rfl)⟩

/-- C7, original form refuted: a truncated or empty checkpoint raises
`EOFError`, which is neither an `IOError` nor a `pickle.PickleError`, so it
escapes the `except` clause and aborts the run; and a record that holds
`'solutions'` but lacks `'exhausted_paths'` aborts with an uncaught
`KeyError` *after* `solutions` has already been reassigned, so the run
neither proceeds nor is left in the empty state. -/
theorem claim_C7_counterexample :
    do_load_progress initialGlobals (.raised .eofError) =
      .error (.eofError, initialGlobals) ∧
    do_load_progress initialGlobals
        (.loaded ⟨some [[1, 2]], none, none, none⟩) =
      .error (.keyError, { initialGlobals with solutions := [[1, 2]] }) ∧
    ({ initialGlobals with solutions := [[1, 2]] } : ProgressState) ≠
      initialGlobals := by
  refine ⟨rfl, rfl, ?_⟩
  decide

/-! ## C10: pruning only shrinks the exhausted set and touches nothing else -/

/-- C10: `do_prune_exhausted_paths_list` never modifies the solution set,
the dead-end counter or the configured threshold, keeps the tracking mode
(`None` stays `None`, a set stays a set), and never adds a member: the
exhausted set after pruning is a subset of the exhausted set before. -/
theorem claim_C10_prune_frame (st : KState) :
    (do_prune_exhausted_paths_list st).solutions = st.solutions ∧
    (do_prune_exhausted_paths_list st).totalPathsExhaustedNum = st.totalPathsExhaustedNum ∧
    (do_prune_exhausted_paths_list st).exhaustedPathsPruneThreshold
      = st.exhaustedPathsPruneThreshold ∧
    ((do_prune_exhausted_paths_list st).exhausted.isSome ↔ st.exhausted.isSome) ∧
    (∀ x ∈ (do_prune_exhausted_paths_list st).exhausted.getD [],
      x ∈ st.exhausted.getD []) := by
  rcases hE : st.exhausted with _ | E
  · have hid : do_prune_exhausted_paths_list st = st := by
      unfold do_prune_exhausted_paths_list
      rw [hE]
    rw [hid, hE]
    exact ⟨rfl, rfl, rfl, Iff.rfl, fun x hx => hx⟩
  · by_cases hemp : E.isEmpty
    · have hid : do_prune_exhausted_paths_list st = st := by
        unfold do_prune_exhausted_paths_list
        rw [hE]
        exact if_pos hemp
      rw [hid, hE]
      exact ⟨rfl, rfl, rfl, Iff.rfl, fun x hx => hx⟩
    · have hid : do_prune_exhausted_paths_list st =
          { st with exhausted := some (prunedPathsList E)
                    pathsLengthAtLastPrune := (prunedPathsList E).length } := by
        unfold do_prune_exhausted_paths_list
        rw [hE]
        exact if_neg hemp
      rw [hid]
      refine ⟨rfl, rfl, rfl, by simp, ?_⟩
      intro x hx
      simp only [Option.getD_some] at hx ⊢
      exact prunedPathsList_subset hx

theorem claim_C10_witness :
    (do_prune_exhausted_paths_list stC6).solutions = stC6.solutions ∧
    (do_prune_exhausted_paths_list stC6).totalPathsExhaustedNum
      = stC6.totalPathsExhaustedNum ∧
    (do_prune_exhausted_paths_list stC6).exhaustedPathsPruneThreshold
      = stC6.exhaustedPathsPruneThreshold ∧
    ((do_prune_exhausted_paths_list stC6).exhausted.isSome ↔ stC6.exhausted.isSome) ∧
    (∀ x ∈ (do_prune_exhausted_paths_list stC6).exhausted.getD [],
      x ∈ stC6.exhausted.getD []) :=
  claim_C10_prune_frame stC6

/-! ## Buffer facts -/

deriving instance DecidableEq for Except

theorem bytearray_set_ok {buf : List Nat} {i v : Nat} {buf1 : List Nat}
    (h : bytearray_set buf i v = .ok buf1) :
    buf1 = buf.set i v ∧ i < buf.length ∧ v < 256 := by
  unfold bytearray_set at h
  split_ifs at h with h1 h2
  · injection h with h
    exact ⟨h.symm, h1, h2⟩

/-- Writing the value a slot already holds does not change the buffer. -/
theorem set_get_self (buf : List Nat) (n : Nat) (h : n < buf.length)
    (hv : buf.get ⟨n, h⟩ = 0) : buf.set n 0 = buf := by
  apply List.ext_get
  · simp
  · intro i h1 h2
    rw [List.get_set]
    split_ifs with hin
    · subst hin
      exact hv.symm
    · rfl

/-- The zero suffix survives writing a slot at or above the threshold. -/
theorem zeroSuffix_set {buf : List Nat} {n v : Nat}
    (hz : ∀ i, ∀ h : i < buf.length, n ≤ i → buf.get ⟨i, h⟩ = 0) :
    ∀ i, ∀ h : i < (buf.set n v).length, n + 1 ≤ i → (buf.set n v).get ⟨i, h⟩ = 0 := by
  intro i h hi
  have hlen : i < buf.length := by simpa using h
  rw [List.get_set]
  split_ifs with hin
  · omega
  · exact hz i hlen (by omega)

/-! ## C4: buffer restoration -/

/-- The loop of `_solve_from` restores the buffer on normal completion,
assuming the recursive call does and the buffer is zero from the current
depth on. -/
theorem solveLoopF_ok_buf (recur : Nat → List Nat → Nat → KState → SolveResult)
    (hrec : ∀ s b k st2,
      (∀ i, ∀ h : i < b.length, k ≤ i → b.get ⟨i, h⟩ = 0) →
      ∀ b' st', (recur s b k st2).2 = .ok (b', st') → b' = b)
    (ptn : List (Nat × List Nat)) (start : Nat) :
    ∀ (steps : List Nat) (buf : List Nat) (n : Nat) (st : KState),
      (∀ i, ∀ h : i < buf.length, n ≤ i → buf.get ⟨i, h⟩ = 0) →
      ∀ buf' st', (solveLoopF recur ptn start steps buf n st).2 = .ok (buf', st') →
        buf' = buf := by
  intro steps
  induction steps with
  | nil =>
    intro buf n st hz buf' st' h
    simp only [solveLoopF] at h
    injection h with h
    injection h with h1 h2
    exact h1.symm
  | cons next rest ih =>
    intro buf n st hz buf' st' h
    simp only [solveLoopF] at h
    split at h
    · cases h
    next nodes hlk =>
      split at h
      · cases h
      next next_loc hhd =>
        split at h
        next e hws => cases h
        next buf1 hws =>
          rcases bytearray_set_ok hws with ⟨hbuf1, hn, _⟩
          have hz1 : ∀ i, ∀ hh : i < buf1.length, n + 1 ≤ i → buf1.get ⟨i, hh⟩ = 0 := by
            subst hbuf1
            exact zeroSuffix_set hz
          split at h
          next ys e hr => cases h
          next ys buf2 st2 hr =>
            have hbuf2 : buf2 = buf1 := by
              split_ifs at hr
              · injection hr with hr1 hr2
                injection hr2 with hr2
                injection hr2 with hr2a hr2b
                exact hr2a.symm
              · have := hrec next_loc buf1 (n + 1) st hz1 buf2 st2
                rw [hr] at this
                exact this rfl
            split at h
            next e hws0 => cases h
            next buf3 hws0 =>
              rcases bytearray_set_ok hws0 with ⟨hbuf3, _, _⟩
              have hbuf3eq : buf3 = buf := by
                rw [hbuf3, hbuf2, hbuf1, List.set_set]
                exact set_get_self buf n hn (hz n hn (le_refl n))
              simp only at h
              have := ih buf3 n st2 (by rw [hbuf3eq]; exact hz) buf' st' h
              rw [← hbuf3eq]
              exact this

/-- `_solve_from` restores the shared buffer on every normal completion:
whenever a call whose buffer is zero from the current depth on returns
without an escaped exception, the returned buffer equals the one passed
in. -/
theorem solveFromAux_ok_buf :
    ∀ (fuel : Nat) (ptn ntp : List (Nat × List Nat)) (start : Nat)
      (buf : List Nat) (n : Nat) (st : KState),
      (∀ i, ∀ h : i < buf.length, n ≤ i → buf.get ⟨i, h⟩ = 0) →
      ∀ buf' st', (solveFromAux ptn ntp fuel start buf n st).2 = .ok (buf', st') →
        buf' = buf := by
  intro fuel
  induction fuel with
  | zero =>
    intro ptn ntp start buf n st hz buf' st' h
    simp only [solveFromAux] at h
    cases h
  | succ fuel ih =>
    intro ptn ntp start buf n st hz buf' st' h
    simp only [solveFromAux] at h
    split_ifs at h with hlen
    · injection h with h
      injection h with h1 h2
      exact h1.symm
    · split at h
      · cases h
      next paths hlk =>
        split_ifs at h with hempty
        · injection h with h
          injection h with h1 h2
          exact h1.symm
        · exact solveLoopF_ok_buf _
            (fun s b k st2 hzb b' st2' hok => ih ptn ntp s b k st2 hzb b' st2' hok)
            ptn start _ buf n st hz buf' st' h

/-- A three-edge multigraph: parallel edges 1 and 2 join nodes 1 and 2,
edge 3 joins nodes 2 and 3. -/
def exPtn3 : List (Nat × List Nat) := [(1, [1, 2]), (2, [1, 2]), (3, [2, 3])]

/-- The node dict of `exPtn3`. -/
def exNtp3 : List (Nat × List Nat) := [(1, [1, 2]), (2, [1, 2, 3]), (3, [3])]

/-- The global state after exploring `exPtn3` from node 1 (four dead ends,
no solutions). -/
def stAfterC4Witness : KState :=
  { exhausted := none, pathsLengthAtLastPrune := 0, totalPathsExhaustedNum := 4,
    exhaustedPathsPruneThreshold := 1000, solutions := [] }

/-- The C4 failing input: edge 1 joins nodes 1 and 2, edge 2 is a self-loop
at node 2 (accepted by validation, see C9). -/
def exPtn4 : List (Nat × List Nat) := [(1, [1, 2]), (2, [2, 2])]

/-- The node dict of `exPtn4`. -/
def exNtp4 : List (Nat × List Nat) := [(1, [1]), (2, [1, 2])]

/-- C4 (amended): every recursive call of `_solve_from` whose buffer is
zero-filled from the current depth on restores the shared buffer to its
pre-call contents on every *normal* exit path; when an exception is raised
inside a nested call it propagates without the cleanup running, so the
buffer can escape modified (see `claim_C4_counterexample`). -/
theorem claim_C4_buffer_restored (fuel : Nat) (ptn ntp : List (Nat × List Nat))
    (start : Nat) (buf : List Nat) (n : Nat) (st : KState)
    (hz : ∀ i, ∀ h : i < buf.length, n ≤ i → buf.get ⟨i, h⟩ = 0)
    (buf' : List Nat) (st' : KState)
    (hok : (solveFromAux ptn ntp fuel start buf n st).2 = .ok (buf', st')) :
    buf' = buf :=
  solveFromAux_ok_buf fuel ptn ntp start buf n st hz buf' st' hok

theorem claim_C4_witness :
    (solveFromAux exPtn3 exNtp3 4 1 [0, 0, 0] 0 (initState none 1000)).2 =
      .ok ([0, 0, 0], stAfterC4Witness) ∧
    ∀ buf' : List Nat,
      (solveFromAux exPtn3 exNtp3 4 1 [0, 0, 0] 0 (initState none 1000)).2 =
        .ok (buf', stAfterC4Witness) → buf' = [0, 0, 0] := by
  constructor
  · decide
  · intro buf' hok
    exact claim_C4_buffer_restored 4 exPtn3 exNtp3 1 [0, 0, 0] 0 (initState none 1000)
      (by decide) buf' stAfterC4Witness hok

/-- C4 counterexample: running `solve_from` on `exPtn4` from node 1, the
nested call at depth 1 raises `IndexError` (the self-loop has no endpoint
different from node 2); the exception escapes with the shared buffer still
holding the step written at depth 0, not the pre-call all-zero contents. -/
theorem claim_C4_counterexample :
    (solve_from exPtn4 exNtp4 1 (initState none 1000)).2 =
      .error (.indexError, [1, 0], initState none 1000) ∧
    List.replicate exPtn4.length (0 : Nat) = [0, 0] ∧
    ([1, 0] : List Nat) ≠ [0, 0] := by
  refine ⟨by decide, by decide, by decide⟩

/-! ## C9: validation admits self-loops and the enumerator then crashes -/

/-- The C9 failing input: a single self-loop at node 1. -/
def exPtnSelf : List (Nat × List Nat) := [(1, [1, 1])]

/-- The node dict of `exPtnSelf`. -/
def exNtpSelf : List (Nat × List Nat) := [(1, [1])]

/-- C9: `_sanity_check_dicts` accepts the self-loop map (its node list has
length 2, both entries are keys), and `solve_from` then raises `IndexError`
when it takes the self-loop, because
`[p for p in paths_to_nodes[1] if p != 1]` is empty; nothing is yielded. -/
theorem claim_C9_self_loop_crash :
    sanity_check_dicts exPtnSelf exNtpSelf = .ok () ∧
    solve_from exPtnSelf exNtpSelf 1 (initState none 1000) =
      ([], .error (.indexError, [0], initState none 1000)) := by
  constructor
  · decide
  · decide

/-! ## Buffer decomposition facts -/

theorem zeroSuffix_drop {buf : List Nat} {n : Nat}
    (hz : ∀ i, ∀ h : i < buf.length, n ≤ i → buf.get ⟨i, h⟩ = 0) :
    ∀ x ∈ buf.drop n, x = 0 := by
  intro x hx
  rcases List.mem_iff_get.mp hx with ⟨⟨j, hj⟩, hget⟩
  have hlen : n + j < buf.length := by
    have hj' := hj
    simp only [List.length_drop] at hj'
    omega
  rw [← List.get_drop buf hlen] at hget
  rw [← hget]
  exact hz (n + j) hlen (by omega)

theorem trimZeros_eq_take {buf : List Nat} {n : Nat}
    (hz : ∀ i, ∀ h : i < buf.length, n ≤ i → buf.get ⟨i, h⟩ = 0)
    (hp : ∀ x ∈ buf.take n, x ≠ 0) :
    trimZeros buf = buf.take n := by
  have h1 : (buf.take n).filter (fun b => b != 0) = buf.take n :=
    List.filter_eq_self.mpr (by intro a ha; simpa using hp a ha)
  have h2 : (buf.drop n).filter (fun b => b != 0) = [] :=
    List.filter_eq_nil_iff.mpr (by
      intro a ha
      simp [zeroSuffix_drop hz a ha])
  calc trimZeros buf = trimZeros (buf.take n ++ buf.drop n) := by
        rw [List.take_append_drop]
    _ = buf.take n := by
        unfold trimZeros
        rw [List.filter_append, h1, h2, List.append_nil]

theorem take_set_self {buf : List Nat} {n v : Nat} (h : n < buf.length) :
    (buf.set n v).take n = buf.take n := by
  rw [List.set_eq_take_cons_drop v h, List.take_append_eq_append_take]
  have hlen : (buf.take n).length = n := List.length_take_of_le (by omega)
  rw [List.take_take, Nat.min_self, hlen, Nat.sub_self]
  simp

theorem take_succ_set {buf : List Nat} {n v : Nat} (h : n < buf.length) :
    (buf.set n v).take (n + 1) = buf.take n ++ [v] := by
  rw [List.set_eq_take_cons_drop v h]
  have hlen : (buf.take n).length = n := List.length_take_of_le (by omega)
  have : n + 1 = (buf.take n).length + 1 := by omega
  rw [this, List.take_append]
  simp

/-- A nonzero entry of the buffer: positions below `n` are nonzero. -/
theorem mem_take_of_mem_take_set {buf : List Nat} {n v : Nat} {x : Nat}
    (h : n < buf.length) (hx : x ∈ (buf.set n v).take (n + 1)) :
    x ∈ buf.take n ∨ x = v := by
  rw [take_succ_set h] at hx
  rcases List.mem_append.mp hx with h1 | h1
  · exact Or.inl h1
  · simp only [List.mem_singleton] at h1
    exact Or.inr h1

/-! ## C1: every yielded trail carries the full edge set -/

/-- Well-formedness of a yielded solution: exactly `ptn.length` entries, no
repeats, and every entry a nonzero edge id of the graph. -/
def YieldWF (ptn : List (Nat × List Nat)) (sol : List Nat) : Prop :=
  sol.length = ptn.length ∧ sol.Nodup ∧ ∀ x ∈ sol, x ∈ keys ptn ∧ 1 ≤ x

theorem solveLoopF_yieldWF
    (ptn ntp : List (Nat × List Nat))
    (HN : ∀ v ps, alookup ntp v = some ps → ∀ p ∈ ps, p ∈ keys ptn ∧ 1 ≤ p)
    (recur : Nat → List Nat → Nat → KState → SolveResult)
    (hrec : ∀ s b k st2,
      b.length = ptn.length →
      (∀ i, ∀ h : i < b.length, k ≤ i → b.get ⟨i, h⟩ = 0) →
      (∀ x ∈ b.take k, x ∈ keys ptn ∧ 1 ≤ x) →
      (b.take k).Nodup →
      ∀ sol ∈ (recur s b k st2).1, YieldWF ptn sol)
    (hrecbuf : ∀ s b k st2,
      (∀ i, ∀ h : i < b.length, k ≤ i → b.get ⟨i, h⟩ = 0) →
      ∀ b' st', (recur s b k st2).2 = .ok (b', st') → b' = b)
    (start : Nat) :
    ∀ (steps : List Nat) (buf : List Nat) (n : Nat) (st : KState),
      buf.length = ptn.length →
      (∀ i, ∀ h : i < buf.length, n ≤ i → buf.get ⟨i, h⟩ = 0) →
      (∀ x ∈ buf.take n, x ∈ keys ptn ∧ 1 ≤ x) →
      (buf.take n).Nodup →
      (∀ p ∈ steps, (∃ ps, alookup ntp start = some ps ∧ p ∈ ps) ∧
        buf.contains p = false) →
      ∀ sol ∈ (solveLoopF recur ptn start steps buf n st).1, YieldWF ptn sol := by
  intro steps
  induction steps with
  | nil =>
    intro buf n st _ _ _ _ _ sol hsol
    simp [solveLoopF] at hsol
  | cons next rest ih =>
    intro buf n st hlen hz hpref hnd hsteps sol hsol
    simp only [solveLoopF] at hsol
    split at hsol
    · simp at hsol
    next nodes hlk =>
      split at hsol
      · simp at hsol
      next next_loc hhd =>
        split at hsol
        next e hws => simp at hsol
        next buf1 hws =>
          rcases bytearray_set_ok hws with ⟨hbuf1, hn, _⟩
          have hnext := hsteps next (List.mem_cons_self _ _)
          have hnextK : next ∈ keys ptn ∧ 1 ≤ next := by
            rcases hnext.1 with ⟨ps, hres, hmem⟩
            exact HN start ps hres next hmem
          have hnotinbuf : next ∉ buf := by
            intro hmem
            rw [← List.elem_iff] at hmem
            have hcontf : List.elem next buf = false := hnext.2
            rw [hcontf] at hmem
            exact Bool.noConfusion hmem
          have hlen1 : buf1.length = ptn.length := by
            rw [hbuf1]; simpa using hlen
          have hz1 : ∀ i, ∀ h : i < buf1.length, n + 1 ≤ i → buf1.get ⟨i, h⟩ = 0 := by
            subst hbuf1; exact zeroSuffix_set hz
          have htake1 : buf1.take (n + 1) = buf.take n ++ [next] := by
            rw [hbuf1]; exact take_succ_set hn
          have hpref1 : ∀ x ∈ buf1.take (n + 1), x ∈ keys ptn ∧ 1 ≤ x := by
            rw [htake1]
            intro x hx
            rcases List.mem_append.mp hx with h1 | h1
            · exact hpref x h1
            · simp only [List.mem_singleton] at h1
              subst h1
              exact hnextK
          have hnd1 : (buf1.take (n + 1)).Nodup := by
            rw [htake1, List.nodup_append]
            refine ⟨hnd, List.nodup_singleton next, ?_⟩
            intro x hx
            simp only [List.mem_singleton]
            intro hxa
            subst hxa
            exact hnotinbuf (List.mem_of_mem_take hx)
          have hr_wf : ∀ (ys : List (List Nat)) (out),
              (if truthyExhausted st.exhausted && path_is_pruned st.exhausted buf1 then
                 (([] : List (List Nat)), Except.ok (buf1, st))
               else recur next_loc buf1 (n + 1) st) = (ys, out) →
              ∀ s ∈ ys, YieldWF ptn s := by
            intro ys out hr s hs
            split_ifs at hr
            · injection hr with h1 h2
              subst h1
              cases hs
            · have hys : (recur next_loc buf1 (n + 1) st).1 = ys := by rw [hr]
              exact hrec next_loc buf1 (n + 1) st hlen1 hz1 hpref1 hnd1 s (hys ▸ hs)
          have hr_buf : ∀ (ys : List (List Nat)) (buf2 : List Nat) (st2 : KState),
              (if truthyExhausted st.exhausted && path_is_pruned st.exhausted buf1 then
                 (([] : List (List Nat)), Except.ok (buf1, st))
               else recur next_loc buf1 (n + 1) st) = (ys, .ok (buf2, st2)) →
              buf2 = buf1 := by
            intro ys buf2 st2 hr
            split_ifs at hr
            · injection hr with h1 h2
              injection h2 with h2
              injection h2 with h2a h2b
              exact h2a.symm
            · have := hrecbuf next_loc buf1 (n + 1) st hz1 buf2 st2
              rw [hr] at this
              exact this rfl
          split at hsol
          next ys e hr =>
            exact hr_wf ys (.error e) hr sol hsol
          next ys buf2 st2 hr =>
            split at hsol
            next e hws0 =>
              exact hr_wf ys (.ok (buf2, st2)) hr sol hsol
            next buf3 hws0 =>
              simp only at hsol
              rcases List.mem_append.mp hsol with hys | hrest
              · exact hr_wf ys (.ok (buf2, st2)) hr sol hys
              · rcases bytearray_set_ok hws0 with ⟨hbuf3, _, _⟩
                have hbuf2 : buf2 = buf1 := hr_buf ys buf2 st2 hr
                have hbuf3eq : buf3 = buf := by
                  rw [hbuf3, hbuf2, hbuf1, List.set_set]
                  exact set_get_self buf n hn (hz n hn (le_refl n))
                subst hbuf3eq
                exact ih buf3 n st2 hlen hz hpref hnd
                  (fun p hp => hsteps p (List.mem_cons_of_mem _ hp)) sol hrest

theorem solveFromAux_yieldWF
    (ptn ntp : List (Nat × List Nat))
    (HN : ∀ v ps, alookup ntp v = some ps → ∀ p ∈ ps, p ∈ keys ptn ∧ 1 ≤ p) :
    ∀ (fuel : Nat) (start : Nat) (buf : List Nat) (n : Nat) (st : KState),
      buf.length = ptn.length →
      (∀ i, ∀ h : i < buf.length, n ≤ i → buf.get ⟨i, h⟩ = 0) →
      (∀ x ∈ buf.take n, x ∈ keys ptn ∧ 1 ≤ x) →
      (buf.take n).Nodup →
      ∀ sol ∈ (solveFromAux ptn ntp fuel start buf n st).1, YieldWF ptn sol := by
  intro fuel
  induction fuel with
  | zero =>
    intro start buf n st _ _ _ _ sol hsol
    simp [solveFromAux] at hsol
  | succ fuel ih =>
    intro start buf n st hlen hz hpref hnd sol hsol
    simp only [solveFromAux] at hsol
    split_ifs at hsol with hend
    · simp only [List.mem_singleton] at hsol
      subst hsol
      have hp : ∀ x ∈ buf.take n, x ≠ 0 := by
        intro x hx
        have := (hpref x hx).2
        omega
      have hsol_eq : trimZeros buf = buf.take n := trimZeros_eq_take hz hp
      rw [hsol_eq]
      refine ⟨?_, hnd, hpref⟩
      rw [List.length_take_of_le (by omega)]
      omega
    · split at hsol
      · simp at hsol
      next paths hlk =>
        split_ifs at hsol with hempty
        · simp at hsol
        · refine solveLoopF_yieldWF ptn ntp HN _
            (fun s b k st2 hb hzb hprefb hndb s2 hs2 =>
              ih s b k st2 hb hzb hprefb hndb s2 hs2)
            (fun s b k st2 hzb b' st2' hok =>
              solveFromAux_ok_buf fuel ptn ntp s b k st2 hzb b' st2' hok)
            start _ buf n st hlen hz hpref hnd ?_ sol hsol
          intro p hp
          have hp' : p ∈ paths.filter (fun p => !buf.contains p) :=
            (List.perm_insertionSort _ _).mem_iff.mp hp
          rcases List.mem_filter.mp hp' with ⟨hmem, hcond⟩
          refine ⟨⟨paths, hlk, hmem⟩, ?_⟩
          simpa using hcond

/-! ## Facts about the translation tables of `normalize_dicts` -/

theorem lookupNat_mem {tab : List (Nat × Nat)} {k v : Nat}
    (h : lookupNat tab k = some v) : (k, v) ∈ tab := by
  induction tab with
  | nil => simp [lookupNat] at h
  | cons hd tl ih =>
    rcases hd with ⟨a, b⟩
    by_cases hk : a = k
    · subst hk
      simp only [lookupNat, if_pos rfl] at h
      injection h with h
      subst h
      exact List.mem_cons_self _ _
    · simp only [lookupNat, if_neg hk] at h
      exact List.mem_cons_of_mem _ (ih h)

theorem lookupNat_isSome_of_mem {tab : List (Nat × Nat)} {k : Nat}
    (h : k ∈ tab.map Prod.fst) : ∃ v, lookupNat tab k = some v := by
  induction tab with
  | nil => simp at h
  | cons hd tl ih =>
    by_cases hk : hd.1 = k
    · exact ⟨hd.2, by
        rcases hd with ⟨a, b⟩
        simp only at hk
        simp [lookupNat, hk]⟩
    · have : k ∈ tl.map Prod.fst := by
        rcases List.mem_map.mp h with ⟨pr, hpr, hprk⟩
        rcases List.mem_cons.mp hpr with h1 | h1
        · exact absurd (h1 ▸ hprk) hk
        · exact List.mem_map.mpr ⟨pr, h1, hprk⟩
      rcases ih this with ⟨v, hv⟩
      rcases hd with ⟨a, b⟩
      simp only at hk
      exact ⟨v, by simp [lookupNat, hk, hv]⟩

/-- A lookup in the swapped table followed by a lookup in the original table
returns the original key, as long as the original table has duplicate-free
first components. -/
theorem lookup_swap_fwd {T : List (Nat × Nat)}
    (hfst : (T.map Prod.fst).Nodup) {l i : Nat}
    (h : lookupNat (T.map (fun p => (p.2, p.1))) l = some i) :
    lookupNat T i = some l := by
  induction T with
  | nil => simp [lookupNat] at h
  | cons hd tl ih =>
    rcases hd with ⟨a, b⟩
    simp only [List.map_cons] at h
    by_cases hbl : b = l
    · subst hbl
      simp only [lookupNat, if_pos rfl] at h
      injection h with h
      subst h
      simp [lookupNat]
    · simp only [lookupNat, if_neg hbl] at h
      have hfst' : (tl.map Prod.fst).Nodup := by
        simp only [List.map_cons, List.nodup_cons] at hfst
        exact hfst.2
      have htl := ih hfst' h
      have hai : a ≠ i := by
        intro hai
        subst hai
        have : (a, l) ∈ tl := lookupNat_mem htl
        have : a ∈ tl.map Prod.fst := List.mem_map.mpr ⟨(a, l), this, rfl⟩
        simp only [List.map_cons, List.nodup_cons] at hfst
        exact hfst.1 this
      simp only [lookupNat, if_neg hai]
      exact htl

theorem zip_fst_nodup {l1 : List Nat} (h : l1.Nodup) :
    ∀ l2 : List Nat, ((l1.zip l2).map Prod.fst).Nodup := by
  induction l1 with
  | nil => intro l2; simp
  | cons a l1' ih =>
    intro l2
    rcases l2 with _ | ⟨b, l2'⟩
    · simp
    · simp only [List.zip_cons_cons, List.map_cons, List.nodup_cons]
      rcases List.nodup_cons.mp h with ⟨hna, hnd'⟩
      refine ⟨?_, ih hnd' l2'⟩
      intro hmem
      rcases List.mem_map.mp hmem with ⟨pr, hpr, hpra⟩
      have := (List.mem_zip hpr).1
      exact hna (hpra ▸ this)

/-- First components of a translation table are duplicate-free. -/
theorem translationTable_fst_nodup (d : List (Nat × List Nat)) :
    ((translationTable d).map Prod.fst).Nodup :=
  zip_fst_nodup (List.nodup_range' 1 255) _

/-- Entries of a translation table: ids lie in 1..255 and labels among the
sorted keys. -/
theorem translationTable_mem {d : List (Nat × List Nat)} {i l : Nat}
    (h : (i, l) ∈ translationTable d) :
    1 ≤ i ∧ i ≤ 255 ∧ l ∈ keys d := by
  have := List.mem_zip h
  rcases this with ⟨hi, hl⟩
  rw [List.mem_range'_1] at hi
  refine ⟨by omega, by omega, ?_⟩
  exact (List.perm_insertionSort _ _).mem_iff.mp hl

/-- A successful reverse lookup, composed with the forward table, recovers
the label; the id is in 1..255 and the label among the keys. -/
theorem reverseTable_lookup {d : List (Nat × List Nat)} {l i : Nat}
    (h : lookupNat (reverseTable (translationTable d)) l = some i) :
    lookupNat (translationTable d) i = some l ∧ 1 ≤ i ∧ i ≤ 255 ∧ l ∈ keys d := by
  have hfwd := lookup_swap_fwd (translationTable_fst_nodup d) h
  have hmem := lookupNat_mem hfwd
  rcases translationTable_mem hmem with ⟨h1, h2, h3⟩
  exact ⟨hfwd, h1, h2, h3⟩

/-- Reverse lookups are injective. -/
theorem reverseTable_lookup_inj {d : List (Nat × List Nat)} {l1 l2 i : Nat}
    (h1 : lookupNat (reverseTable (translationTable d)) l1 = some i)
    (h2 : lookupNat (reverseTable (translationTable d)) l2 = some i) :
    l1 = l2 := by
  have e1 := (reverseTable_lookup h1).1
  have e2 := (reverseTable_lookup h2).1
  rw [e1] at e2
  exact Option.some.inj e2

/-! ## Facts about the translation loops of `normalize_dicts` -/

theorem translateList_forall₂ {tab : List (Nat × Nat)} :
    ∀ {vs vs' : List Nat}, translateList tab vs = .ok vs' →
      List.Forall₂ (fun v v' => lookupNat tab v = some v') vs vs' := by
  intro vs
  induction vs with
  | nil =>
    intro vs' h
    simp only [translateList] at h
    injection h with h
    subst h
    exact List.Forall₂.nil
  | cons v rest ih =>
    intro vs' h
    simp only [translateList] at h
    split at h
    · cases h
    next v' hv =>
      split at h
      · cases h
      next rest' hrest =>
        injection h with h
        subst h
        exact List.Forall₂.cons hv (ih hrest)

theorem translateEntries_forall₂ {keyTab valTab : List (Nat × Nat)} :
    ∀ {d d' : List (Nat × List Nat)}, translateEntries keyTab valTab d = .ok d' →
      List.Forall₂ (fun pr pr' => lookupNat keyTab pr.1 = some pr'.1 ∧
        ∃ vs', translateList valTab pr.2 = .ok vs' ∧ pr'.2 = sortNats vs') d d' := by
  intro d
  induction d with
  | nil =>
    intro d' h
    simp only [translateEntries] at h
    injection h with h
    subst h
    exact List.Forall₂.nil
  | cons pr rest ih =>
    intro d' h
    rcases pr with ⟨k, vs⟩
    simp only [translateEntries] at h
    split at h
    · cases h
    next vs' hvs =>
      split at h
      · cases h
      next k' hk =>
        split at h
        · cases h
        next rest' hrest =>
          injection h with h
          subst h
          exact List.Forall₂.cons ⟨hk, vs', hvs, rfl⟩ (ih hrest)

theorem forall₂_mem_right {α β : Type} {r : α → β → Prop} :
    ∀ {la : List α} {lb : List β}, List.Forall₂ r la lb → ∀ b ∈ lb, ∃ a ∈ la, r a b := by
  intro la lb h
  induction h with
  | nil => intro b hb; cases hb
  | cons hr hrest ih =>
    intro b hb
    rcases List.mem_cons.mp hb with rfl | hb'
    · exact ⟨_, List.mem_cons_self _ _, hr⟩
    · rcases ih b hb' with ⟨a, ha, har⟩
      exact ⟨a, List.mem_cons_of_mem _ ha, har⟩

theorem forall₂_mem_left {α β : Type} {r : α → β → Prop} :
    ∀ {la : List α} {lb : List β}, List.Forall₂ r la lb → ∀ a ∈ la, ∃ b ∈ lb, r a b := by
  intro la lb h
  induction h with
  | nil => intro a ha; cases ha
  | cons hr hrest ih =>
    intro a ha
    rcases List.mem_cons.mp ha with rfl | ha'
    · exact ⟨_, List.mem_cons_self _ _, hr⟩
    · rcases ih a ha' with ⟨b, hb, hbr⟩
      exact ⟨b, List.mem_cons_of_mem _ hb, hbr⟩

/-- Keys of a translated dict are duplicate-free when the original keys are
and the key-table lookups are injective. -/
theorem translate_keys_nodup {keyTab valTab : List (Nat × Nat)}
    (hinj : ∀ l1 l2 i, lookupNat keyTab l1 = some i → lookupNat keyTab l2 = some i →
      l1 = l2) :
    ∀ {d d' : List (Nat × List Nat)},
      List.Forall₂ (fun pr pr' => lookupNat keyTab pr.1 = some pr'.1 ∧
        ∃ vs', translateList valTab pr.2 = .ok vs' ∧ pr'.2 = sortNats vs') d d' →
      (keys d).Nodup → (keys d').Nodup := by
  intro d d' h
  induction h with
  | nil => intro _; simp [keys]
  | @cons pr pr' dtl dtl' hr hrest ih =>
    intro hnd
    rw [keys, List.map_cons, List.nodup_cons] at hnd
    rw [keys, List.map_cons, List.nodup_cons]
    refine ⟨?_, ih hnd.2⟩
    intro hmem
    rcases List.mem_map.mp hmem with ⟨q', hq', hfst⟩
    rcases forall₂_mem_right hrest q' hq' with ⟨q, hq, hrel⟩
    have heq := hinj q.1 pr.1 pr'.1 (by rw [hrel.1, hfst]) hr.1
    exact hnd.1 (List.mem_map.mpr ⟨q, hq, heq⟩)

/-- Inverting a successful `normalize_dicts`. -/
theorem normalize_dicts_ok_inv {optn ontp p n : List (Nat × List Nat)}
    {px nx pxr nxr : List (Nat × Nat)}
    (h : normalize_dicts optn ontp = .ok (p, n, px, nx, pxr, nxr)) :
    sanity_check_dicts optn ontp = .ok () ∧
    px = translationTable optn ∧ nx = translationTable ontp ∧
    pxr = reverseTable (translationTable optn) ∧
    nxr = reverseTable (translationTable ontp) ∧
    translateEntries (reverseTable (translationTable optn))
      (reverseTable (translationTable ontp)) optn = .ok p ∧
    translateEntries (reverseTable (translationTable ontp))
      (reverseTable (translationTable optn)) ontp = .ok n := by
  unfold normalize_dicts at h
  split at h
  · cases h
  next u hsan =>
    have h' : (match translateEntries (reverseTable (translationTable optn))
        (reverseTable (translationTable ontp)) optn with
      | Except.error e => Except.error e
      | Except.ok paths_ret =>
        match translateEntries (reverseTable (translationTable ontp))
            (reverseTable (translationTable optn)) ontp with
        | Except.error e => Except.error e
        | Except.ok nodes_ret =>
          Except.ok (paths_ret, nodes_ret, translationTable optn, translationTable ontp,
            reverseTable (translationTable optn), reverseTable (translationTable ontp))) =
        Except.ok (p, n, px, nx, pxr, nxr) := h
    clear h
    rename' h' => h
    split at h
    · cases h
    next paths_ret htrp =>
      split at h
      · cases h
      next nodes_ret htrn =>
        injection h with htup
        injection htup with h1 htup
        injection htup with h2 htup
        injection htup with h3 htup
        injection htup with h4 htup
        injection htup with h5 h6
        subst h1; subst h2; subst h3; subst h4; subst h5; subst h6
        rcases u with ⟨⟩
        exact ⟨hsan, rfl, rfl, rfl, rfl, htrp, htrn⟩

/-- The normalized dicts satisfy the well-formedness facts the enumerator
invariant needs: duplicate-free edge ids, and every id listed for a node is
a nonzero key of the normalized path dict. -/
theorem normalize_output_valid {optn ontp p n : List (Nat × List Nat)}
    {px nx pxr nxr : List (Nat × Nat)}
    (hnd1 : (keys optn).Nodup)
    (h : normalize_dicts optn ontp = .ok (p, n, px, nx, pxr, nxr)) :
    (keys p).Nodup ∧ p.length = optn.length ∧
    (∀ v ps, alookup n v = some ps → ∀ q ∈ ps, q ∈ keys p ∧ 1 ≤ q) := by
  rcases normalize_dicts_ok_inv h with ⟨hsan, _, _, _, _, htrp, htrn⟩
  have hf2p := translateEntries_forall₂ htrp
  have hf2n := translateEntries_forall₂ htrn
  have hsanfacts := (sanity_check_ok_iff optn ontp).mp hsan
  have hinj : ∀ l1 l2 i,
      lookupNat (reverseTable (translationTable optn)) l1 = some i →
      lookupNat (reverseTable (translationTable optn)) l2 = some i → l1 = l2 :=
    fun _ _ _ h1 h2 => reverseTable_lookup_inj h1 h2
  refine ⟨translate_keys_nodup hinj hf2p hnd1, hf2p.length_eq.symm, ?_⟩
  intro v ps hlook q hq
  have hmem : (v, ps) ∈ n := alookup_mem hlook
  rcases forall₂_mem_right hf2n (v, ps) hmem with ⟨⟨v0, ls⟩, hpr, hrel⟩
  rcases hrel.2 with ⟨vs', htl, hps⟩
  have hq' : q ∈ vs' := by
    rw [show ps = sortNats vs' from hps] at hq
    exact (List.perm_insertionSort _ _).mem_iff.mp hq
  rcases forall₂_mem_right (translateList_forall₂ htl) q hq' with ⟨l, hl, hlq⟩
  rcases reverseTable_lookup hlq with ⟨_, h1q, _, hlkeys⟩
  refine ⟨?_, h1q⟩
  have hlinoptn : l ∈ keys optn := hsanfacts.2.2.2.2 (v0, ls) hpr l hl
  rcases List.mem_map.mp hlinoptn with ⟨pr0, hpr0, hpr0l⟩
  rcases forall₂_mem_left hf2p pr0 hpr0 with ⟨pr0', hpr0', hrel0⟩
  have : lookupNat (reverseTable (translationTable optn)) l = some pr0'.1 := by
    rw [← hpr0l]
    exact hrel0.1
  rw [hlq] at this
  injection this with this
  rw [this]
  exact List.mem_map.mpr ⟨pr0', hpr0', rfl⟩

/-- C1: for dictionaries accepted by validation and normalized, every trail
yielded by `solve_from` from any start node uses every edge of the graph
exactly once: its length equals the edge count, it has no repeated edge,
and its set of edge ids equals the set of all edge ids. -/
theorem claim_C1_trails_use_every_edge
    (optn ontp : List (Nat × List Nat)) (hnd1 : (keys optn).Nodup)
    (p n : List (Nat × List Nat)) (px nx pxr nxr : List (Nat × Nat))
    (hnorm : normalize_dicts optn ontp = .ok (p, n, px, nx, pxr, nxr))
    (start : Nat) (st : KState) (sol : List Nat)
    (hsol : sol ∈ (solve_from p n start st).1) :
    sol.length = p.length ∧ sol.Nodup ∧ sol.toFinset = (keys p).toFinset := by
  rcases normalize_output_valid hnd1 hnorm with ⟨hknd, _, HN⟩
  have hwf : YieldWF p sol := by
    refine solveFromAux_yieldWF p n HN (p.length + 1) start
      (List.replicate p.length 0) 0 st (by simp) ?_ (by simp) (by simp) sol hsol
    intro i h _
    simp [List.get_replicate]
  rcases hwf with ⟨hlen, hnd, hmem⟩
  refine ⟨hlen, hnd, ?_⟩
  have hsub : sol.toFinset ⊆ (keys p).toFinset := by
    intro x hx
    rw [List.mem_toFinset] at hx ⊢
    exact (hmem x hx).1
  refine Finset.eq_of_subset_of_card_le hsub ?_
  rw [List.toFinset_card_of_nodup hnd, hlen]
  calc (keys p).toFinset.card ≤ (keys p).length := List.toFinset_card_le _
  _ = p.length := by simp [keys]

/-- The identity translation table on ids 1..3. -/
def idTab3 : List (Nat × Nat) := [(1, 1), (2, 2), (3, 3)]

theorem claim_C1_witness :
    ([1, 2, 3] : List Nat).length = exPtn3.length ∧ ([1, 2, 3] : List Nat).Nodup ∧
    ([1, 2, 3] : List Nat).toFinset = (keys exPtn3).toFinset :=
  claim_C1_trails_use_every_edge exPtn3 exNtp3 (by decide) exPtn3 exNtp3
    idTab3 idTab3 idTab3 idTab3 (by rfl) 2 (initState none 1000) [1, 2, 3]
    (by decide)

/-! ## C3: yielded trails are walks from the start node -/

theorem otherEnd_eq {ptn : List (Nat × List Nat)} {v e w : Nat} {es : List Nat}
    (h1 : alookup ptn e = some es)
    (h2 : (es.filter (fun p => p != v)).head? = some w) :
    otherEnd ptn v e = some w := by
  unfold otherEnd
  rw [h1]
  exact h2

theorem solveLoopF_walk
    (ptn ntp : List (Nat × List Nat))
    (recur : Nat → List Nat → Nat → KState → SolveResult)
    (hrec : ∀ s b k st2,
      (∀ i, ∀ h : i < b.length, k ≤ i → b.get ⟨i, h⟩ = 0) →
      (∀ x ∈ b.take k, x ≠ 0) →
      ∀ sol ∈ (recur s b k st2).1,
        ∃ tail, sol = b.take k ++ tail ∧ WalkFrom ptn ntp s tail)
    (hrecbuf : ∀ s b k st2,
      (∀ i, ∀ h : i < b.length, k ≤ i → b.get ⟨i, h⟩ = 0) →
      ∀ b' st', (recur s b k st2).2 = .ok (b', st') → b' = b)
    (start : Nat) :
    ∀ (steps : List Nat) (buf : List Nat) (n : Nat) (st : KState),
      (∀ i, ∀ h : i < buf.length, n ≤ i → buf.get ⟨i, h⟩ = 0) →
      (∀ x ∈ buf.take n, x ≠ 0) →
      (∀ p ∈ steps, (∃ ps, alookup ntp start = some ps ∧ p ∈ ps) ∧
        buf.contains p = false) →
      ∀ sol ∈ (solveLoopF recur ptn start steps buf n st).1,
        ∃ tail, sol = buf.take n ++ tail ∧ WalkFrom ptn ntp start tail := by
  intro steps
  induction steps with
  | nil =>
    intro buf n st _ _ _ sol hsol
    simp [solveLoopF] at hsol
  | cons next rest ih =>
    intro buf n st hz hpz hsteps sol hsol
    simp only [solveLoopF] at hsol
    split at hsol
    · simp at hsol
    next nodes hlk =>
      split at hsol
      · simp at hsol
      next next_loc hhd =>
        split at hsol
        next e hws => simp at hsol
        next buf1 hws =>
          rcases bytearray_set_ok hws with ⟨hbuf1, hn, _⟩
          have hnext := hsteps next (List.mem_cons_self _ _)
          have hnotinbuf : next ∉ buf := by
            intro hmem
            rw [← List.elem_iff] at hmem
            have hcontf : List.elem next buf = false := hnext.2
            rw [hcontf] at hmem
            exact Bool.noConfusion hmem
          have hnext0 : next ≠ 0 := by
            intro h0
            subst h0
            apply hnotinbuf
            have hg : buf.get ⟨n, hn⟩ = 0 := hz n hn (le_refl n)
            have hm : buf.get ⟨n, hn⟩ ∈ buf := List.get_mem buf n hn
            rw [hg] at hm
            exact hm
          have hz1 : ∀ i, ∀ h : i < buf1.length, n + 1 ≤ i → buf1.get ⟨i, h⟩ = 0 := by
            subst hbuf1; exact zeroSuffix_set hz
          have htake1 : buf1.take (n + 1) = buf.take n ++ [next] := by
            rw [hbuf1]; exact take_succ_set hn
          have hpz1 : ∀ x ∈ buf1.take (n + 1), x ≠ 0 := by
            rw [htake1]
            intro x hx
            rcases List.mem_append.mp hx with h1 | h1
            · exact hpz x h1
            · simp only [List.mem_singleton] at h1
              subst h1
              exact hnext0
          have hr_walk : ∀ (ys : List (List Nat)) (out),
              (if truthyExhausted st.exhausted && path_is_pruned st.exhausted buf1 then
                 (([] : List (List Nat)), Except.ok (buf1, st))
               else recur next_loc buf1 (n + 1) st) = (ys, out) →
              ∀ s ∈ ys, ∃ tail, s = buf.take n ++ tail ∧ WalkFrom ptn ntp start tail := by
            intro ys out hr s hs
            split_ifs at hr
            · injection hr with h1 h2
              subst h1
              cases hs
            · have hys : (recur next_loc buf1 (n + 1) st).1 = ys := by rw [hr]
              rcases hrec next_loc buf1 (n + 1) st hz1 hpz1 s (hys ▸ hs) with
                ⟨tail, hts, htw⟩
              refine ⟨next :: tail, ?_, ?_⟩
              · rw [hts, htake1, List.append_assoc]
                rfl
              · exact WalkFrom.cons hnext.1 (otherEnd_eq hlk hhd) htw
          have hr_buf : ∀ (ys : List (List Nat)) (buf2 : List Nat) (st2 : KState),
              (if truthyExhausted st.exhausted && path_is_pruned st.exhausted buf1 then
                 (([] : List (List Nat)), Except.ok (buf1, st))
               else recur next_loc buf1 (n + 1) st) = (ys, .ok (buf2, st2)) →
              buf2 = buf1 := by
            intro ys buf2 st2 hr
            split_ifs at hr
            · injection hr with h1 h2
              injection h2 with h2
              injection h2 with h2a h2b
              exact h2a.symm
            · have := hrecbuf next_loc buf1 (n + 1) st hz1 buf2 st2
              rw [hr] at this
              exact this rfl
          split at hsol
          next ys e hr =>
            exact hr_walk ys (.error e) hr sol hsol
          next ys buf2 st2 hr =>
            split at hsol
            next e hws0 =>
              exact hr_walk ys (.ok (buf2, st2)) hr sol hsol
            next buf3 hws0 =>
              simp only at hsol
              rcases List.mem_append.mp hsol with hys | hrest
              · exact hr_walk ys (.ok (buf2, st2)) hr sol hys
              · rcases bytearray_set_ok hws0 with ⟨hbuf3, _, _⟩
                have hbuf2 : buf2 = buf1 := hr_buf ys buf2 st2 hr
                have hbuf3eq : buf3 = buf := by
                  rw [hbuf3, hbuf2, hbuf1, List.set_set]
                  exact set_get_self buf n hn (hz n hn (le_refl n))
                subst hbuf3eq
                exact ih buf3 n st2 hz hpz
                  (fun p hp => hsteps p (List.mem_cons_of_mem _ hp)) sol hrest

theorem solveFromAux_walk (ptn ntp : List (Nat × List Nat)) :
    ∀ (fuel : Nat) (start : Nat) (buf : List Nat) (n : Nat) (st : KState),
      (∀ i, ∀ h : i < buf.length, n ≤ i → buf.get ⟨i, h⟩ = 0) →
      (∀ x ∈ buf.take n, x ≠ 0) →
      ∀ sol ∈ (solveFromAux ptn ntp fuel start buf n st).1,
        ∃ tail, sol = buf.take n ++ tail ∧ WalkFrom ptn ntp start tail := by
  intro fuel
  induction fuel with
  | zero =>
    intro start buf n st _ _ sol hsol
    simp [solveFromAux] at hsol
  | succ fuel ih =>
    intro start buf n st hz hpz sol hsol
    simp only [solveFromAux] at hsol
    split_ifs at hsol with hend
    · simp only [List.mem_singleton] at hsol
      subst hsol
      refine ⟨[], ?_, WalkFrom.nil start⟩
      rw [trimZeros_eq_take hz hpz, List.append_nil]
    · split at hsol
      · simp at hsol
      next paths hlk =>
        split_ifs at hsol with hempty
        · simp at hsol
        · refine solveLoopF_walk ptn ntp _
            (fun s b k st2 hzb hpzb s2 hs2 => ih s b k st2 hzb hpzb s2 hs2)
            (fun s b k st2 hzb b' st2' hok =>
              solveFromAux_ok_buf fuel ptn ntp s b k st2 hzb b' st2' hok)
            start _ buf n st hz hpz ?_ sol hsol
          intro p hp
          have hp' : p ∈ paths.filter (fun p => !buf.contains p) :=
            (List.perm_insertionSort _ _).mem_iff.mp hp
          rcases List.mem_filter.mp hp' with ⟨hmem, hcond⟩
          refine ⟨⟨paths, hlk, hmem⟩, ?_⟩
          simpa using hcond

/-- Turning the structural walk into a node sequence, under the data-model
invariant that every edge listed for a node has that node among its
endpoints. -/
theorem walkFrom_nodeWalk {ptn ntp : List (Nat × List Nat)}
    (hcross : ∀ v ps, alookup ntp v = some ps → ∀ e ∈ ps,
      ∃ es, alookup ptn e = some es ∧ v ∈ es) :
    ∀ {v : Nat} {sol : List Nat}, WalkFrom ptn ntp v sol →
      ∃ vs, vs.head? = some v ∧ IsNodeWalk ptn vs sol := by
  intro v sol h
  induction h with
  | nil w =>
    exact ⟨[w], rfl, by simp, fun i hi => absurd hi (by simp)⟩
  | @cons v e w es hinc hnext hrest ih =>
    rcases ih with ⟨vs', hhd', hlen', hwalk'⟩
    refine ⟨v :: vs', rfl, by simpa using hlen', ?_⟩
    intro i hi
    rcases hinc with ⟨ps, hlk, hmem⟩
    cases i with
    | zero =>
      rcases hcross v ps hlk e hmem with ⟨es0, hes0, hves0⟩
      refine ⟨es0, by simpa using hes0, by simpa using hves0, ?_⟩
      have hw : w ∈ es0 := by
        unfold otherEnd at hnext
        rw [hes0] at hnext
        have := List.mem_of_mem_head? hnext
        exact List.mem_of_mem_filter this
      have hvs'0 : vs'.getD 0 0 = w := by
        cases vs' with
        | nil => cases hhd'
        | cons a t =>
          exact Option.some.inj hhd'
      have hgd : (v :: vs').getD (0 + 1) 0 = vs'.getD 0 0 := rfl
      rw [hgd, hvs'0]
      exact hw
    | succ j =>
      have hj : j < es.length := by simpa using hi
      rcases hwalk' j hj with ⟨esj, h1, h2, h3⟩
      exact ⟨esj, by simpa using h1, by simpa using h2, by simpa using h3⟩

/-- Consecutive edges of a node walk share the intermediate node. -/
theorem nodeWalk_consecutive {ptn : List (Nat × List Nat)} {vs sol : List Nat}
    (h : IsNodeWalk ptn vs sol) :
    ∀ i, ∀ hh : i + 1 < sol.length, ∃ x es es',
      alookup ptn (sol.get ⟨i, by omega⟩) = some es ∧
      alookup ptn (sol.get ⟨i + 1, hh⟩) = some es' ∧ x ∈ es ∧ x ∈ es' := by
  intro i hh
  rcases h with ⟨hlen, hwalk⟩
  rcases hwalk i (by omega) with ⟨es, h1, _, h3⟩
  rcases hwalk (i + 1) hh with ⟨es', h1', h2', _⟩
  exact ⟨vs.getD (i + 1) 0, es, es', h1, h1', h3, h2'⟩

/-- C3 (amended): on a graph satisfying the data-model invariant (each edge
listed for a node has that node among its endpoints), every trail emitted
by `solve_from` induces a node sequence that is a connected walk starting
at the declared start node, and each pair of consecutive edges shares at
least one endpoint (the intermediate node of the walk); parallel edges can
share both endpoints, so "exactly one" fails (see
`claim_C3_counterexample`). -/
theorem claim_C3_consecutive_edges_share_endpoint
    (ptn ntp : List (Nat × List Nat)) (start : Nat) (st : KState)
    (hcross : ∀ v ps, alookup ntp v = some ps → ∀ e ∈ ps,
      ∃ es, alookup ptn e = some es ∧ v ∈ es)
    (sol : List Nat) (hsol : sol ∈ (solve_from ptn ntp start st).1) :
    (∃ vs, vs.head? = some start ∧ IsNodeWalk ptn vs sol) ∧
    (∀ i, ∀ hh : i + 1 < sol.length, ∃ x es es',
      alookup ptn (sol.get ⟨i, by omega⟩) = some es ∧
      alookup ptn (sol.get ⟨i + 1, hh⟩) = some es' ∧ x ∈ es ∧ x ∈ es') := by
  have hwalk : WalkFrom ptn ntp start sol := by
    rcases solveFromAux_walk ptn ntp (ptn.length + 1) start
      (List.replicate ptn.length 0) 0 st
      (by intro i h _; simp [List.get_replicate]) (by simp) sol hsol with
      ⟨tail, htail, hw⟩
    simpa [htail] using hw
  rcases walkFrom_nodeWalk hcross hwalk with ⟨vs, hhd, hnw⟩
  exact ⟨⟨vs, hhd, hnw⟩, nodeWalk_consecutive hnw⟩

theorem claim_C3_witness :
    (∃ vs, vs.head? = some 2 ∧ IsNodeWalk exPtn3 vs [1, 2, 3]) ∧
    (∀ i, ∀ hh : i + 1 < ([1, 2, 3] : List Nat).length, ∃ x es es',
      alookup exPtn3 (([1, 2, 3] : List Nat).get ⟨i, by omega⟩) = some es ∧
      alookup exPtn3 (([1, 2, 3] : List Nat).get ⟨i + 1, hh⟩) = some es' ∧
      x ∈ es ∧ x ∈ es') :=
  claim_C3_consecutive_edges_share_endpoint exPtn3 exNtp3 2 (initState none 1000)
    (by
      intro v ps hlk e he
      have hv : (v, ps) ∈ exNtp3 := alookup_mem hlk
      fin_cases hv <;> fin_cases he <;> exact ⟨_, rfl, by decide⟩)
    [1, 2, 3] (by decide)

/-- C3 counterexample to the "exactly one endpoint" reading: the trail
`[1, 2, 3]` is emitted from node 2 on the parallel-edge graph `exPtn3`, and
its consecutive edges 1 and 2 share both endpoints 1 and 2. -/
theorem claim_C3_counterexample :
    [1, 2, 3] ∈ (solve_from exPtn3 exNtp3 2 (initState none 1000)).1 ∧
    alookup exPtn3 1 = some [1, 2] ∧ alookup exPtn3 2 = some [1, 2] ∧
    (∃ x y : Nat, x ≠ y ∧ (x ∈ ([1, 2] : List Nat) ∧ x ∈ ([1, 2] : List Nat)) ∧
      (y ∈ ([1, 2] : List Nat) ∧ y ∈ ([1, 2] : List Nat))) := by
  refine ⟨by decide, by decide, by decide, 1, 2, by decide, by decide, by decide⟩

/-! ## C2: the exhausted-prefix memoizer is neutral for a single start -/

/-- `e` diverges strictly below `P` in the lexicographic order on edge
sequences: at some position both share a common prefix and `e` holds the
smaller edge id.  Every dead end the single-start search has recorded lies
lexicographically strictly before every prefix the search will still
examine, which is why `path_is_pruned` never fires within one start. -/
def LexBefore (e P : List Nat) : Prop :=
  ∃ i : Nat, ∃ h1 : i < e.length, ∃ h2 : i < P.length,
    e.take i = P.take i ∧ e.get ⟨i, h1⟩ < P.get ⟨i, h2⟩

theorem get_append_self (P t : List Nat) (x : Nat)
    (h : P.length < (P ++ x :: t).length) :
    (P ++ x :: t).get ⟨P.length, h⟩ = x := by
  induction P with
  | nil => rfl
  | cons a P' ih => exact ih (by simp)

theorem lexBefore_append_right {e P : List Nat} (h : LexBefore e P) (t : List Nat) :
    LexBefore e (P ++ t) := by
  rcases h with ⟨i, h1, h2, hta, hlt⟩
  refine ⟨i, h1, by simp; omega, ?_, ?_⟩
  · rw [List.take_append_of_le_length (by omega), hta]
  · rw [List.get_append i h2]
    exact hlt

theorem lexBefore_of_prefix_lt {e P : List Nat} {q q' : Nat}
    (h : IsPrefixOf (P ++ [q]) e) (hlt : q < q') :
    LexBefore e (P ++ [q']) := by
  rcases h with ⟨t, ht⟩
  have he : e = P ++ q :: t := by rw [← ht]; simp
  subst he
  refine ⟨P.length, by simp, by simp, ?_, ?_⟩
  · rw [List.take_append_of_le_length (le_refl _),
      List.take_append_of_le_length (by simp)]
  · rw [get_append_self, get_append_self]
    exact hlt

theorem lexBefore_sibling {e P : List Nat} {q q' : Nat}
    (h : LexBefore e (P ++ [q])) (hlt : q < q') :
    LexBefore e (P ++ [q']) := by
  rcases h with ⟨i, h1, h2, hta, hge⟩
  have h2' : i < P.length + 1 := by simpa using h2
  by_cases hi : i < P.length
  · refine ⟨i, h1, by simp; omega, ?_, ?_⟩
    · rw [List.take_append_of_le_length (by omega)]
      rw [List.take_append_of_le_length (by omega)] at hta
      exact hta
    · rw [List.get_append i hi]
      rw [List.get_append i hi] at hge
      exact hge
  · have hiP : i = P.length := by omega
    subst hiP
    refine ⟨P.length, h1, by simp, ?_, ?_⟩
    · rw [List.take_append_of_le_length (le_refl _)]
      rw [List.take_append_of_le_length (le_refl _)] at hta
      exact hta
    · rw [get_append_self]
      rw [get_append_self] at hge
      omega

theorem lexBefore_parent {e P : List Nat} {q : Nat}
    (h : LexBefore e (P ++ [q])) :
    LexBefore e P ∨ IsPrefixOf P e := by
  rcases h with ⟨i, h1, h2, hta, hge⟩
  have h2' : i < P.length + 1 := by simpa using h2
  by_cases hi : i < P.length
  · left
    refine ⟨i, h1, hi, ?_, ?_⟩
    · rw [List.take_append_of_le_length (by omega)] at hta
      exact hta
    · rw [List.get_append i hi] at hge
      exact hge
  · right
    have hiP : i = P.length := by omega
    subst hiP
    rw [List.take_append_of_le_length (le_refl _), List.take_length] at hta
    have he : e = P ++ e.drop P.length := by
      conv_lhs => rw [← List.take_append_drop P.length e]
      rw [hta]
    exact ⟨e.drop P.length, he.symm⟩

theorem isPrefixOf_of_append_isPrefixOf {P : List Nat} {q : Nat} {e : List Nat}
    (h : IsPrefixOf (P ++ [q]) e) : IsPrefixOf P e := by
  rcases h with ⟨t, ht⟩
  exact ⟨q :: t, by rw [← ht]; simp⟩

theorem not_lexBefore_take (X : List Nat) (k : Nat) :
    ¬ LexBefore (X.take k) X := by
  rintro ⟨i, h1, h2, _, hlt⟩
  have hg : (X.take k).get ⟨i, h1⟩ = X.get ⟨i, h2⟩ := by
    simp [List.get_take]
  rw [hg] at hlt
  exact lt_irrefl _ hlt

theorem take_set_of_le {buf : List Nat} {n v k : Nat} (h : k ≤ n) :
    (buf.set n v).take k = buf.take k := by
  apply List.ext_get
  · simp
  · intro i h1 h2
    have hik : i < k := by
      have := h1
      simp only [List.length_take] at this
      omega
    have hi : i < buf.length := by
      have := h2
      simp only [List.length_take] at this
      omega
    have e1 : ((buf.set n v).take k).get ⟨i, h1⟩ = (buf.set n v).get ⟨i, by simpa using hi⟩ := by
      simp [List.get_take]
    have e2 : (buf.take k).get ⟨i, h2⟩ = buf.get ⟨i, hi⟩ := by
      simp [List.get_take]
    rw [e1, e2, List.get_set]
    rw [if_neg (by omega)]

theorem buf1_take_eq {buf : List Nat} {n q : Nat} (hn : n < buf.length) :
    ∀ k, k ≤ n + 1 → (buf.set n q).take k = (buf.take n ++ [q]).take k := by
  intro k hk
  by_cases hkn : k ≤ n
  · rw [take_set_of_le hkn, List.take_append_of_le_length (by simp; omega),
      List.take_take]
    congr 1
    omega
  · have hk1 : k = n + 1 := by omega
    subst hk1
    rw [take_succ_set hn]
    have hlen : (buf.take n ++ [q]).length = n + 1 := by
      simp
      omega
    rw [← hlen, List.take_length]

/-- With the written slot included, the nonzero count of the buffer is
exactly the new depth. -/
theorem nonzeroCount_set {buf : List Nat} {n q : Nat} (hn : n < buf.length)
    (hz : ∀ i, ∀ h : i < buf.length, n ≤ i → buf.get ⟨i, h⟩ = 0)
    (hpz : ∀ x ∈ buf.take n, x ≠ 0) (hq : q ≠ 0) :
    nonzeroCount (buf.set n q) = n + 1 := by
  have hz1 := zeroSuffix_set (v := q) hz
  have hpz1 : ∀ x ∈ (buf.set n q).take (n + 1), x ≠ 0 := by
    rw [take_succ_set hn]
    intro x hx
    rcases List.mem_append.mp hx with h1 | h1
    · exact hpz x h1
    · simp only [List.mem_singleton] at h1
      subst h1
      exact hq
  unfold nonzeroCount
  rw [trimZeros_eq_take hz1 hpz1, List.length_take_of_le (by simp; omega)]

/-- Under the lex invariant no prefix of the just-written buffer is in the
exhausted set, so `path_is_pruned` returns false. -/
theorem path_is_pruned_false {E : List (List Nat)} {buf1 P : List Nat} {q : Nat}
    (hcount : nonzeroCount buf1 = P.length + 1)
    (htake : ∀ k, k ≤ P.length + 1 → buf1.take k = (P ++ [q]).take k)
    (hINV : ∀ e ∈ E, LexBefore e (P ++ [q]) ∨ e = []) :
    path_is_pruned (some E) buf1 = false := by
  show (if E.isEmpty = true then false
    else (List.range (nonzeroCount buf1)).any fun i => E.contains (List.take (i + 1) buf1)) = false
  split_ifs with hemp
  · rfl
  · rw [List.any_eq_false]
    intro i hi
    rw [List.mem_range, hcount] at hi
    intro hcon
    have hmem : buf1.take (i + 1) ∈ E := List.elem_iff.mp hcon
    have htk : buf1.take (i + 1) = (P ++ [q]).take (i + 1) := htake (i + 1) (by omega)
    rcases hINV _ hmem with hlex | hnil
    · rw [htk] at hlex
      exact not_lexBefore_take _ _ hlex
    · rw [htk] at hnil
      have hlen : ((P ++ [q]).take (i + 1)).length = min (i + 1) (P.length + 1) := by
        simp
    
      rw [hnil] at hlen
      simp at hlen
      omega

theorem sortNats_sorted_lt {l : List Nat} (h : l.Nodup) :
    List.Sorted (· < ·) (sortNats l) :=
  List.Sorted.lt_of_le (List.sorted_insertionSort _ l)
    (List.Perm.nodup (List.Perm.symm (List.perm_insertionSort _ l)) h)

/-- The relation between the outcomes of the memoizer-free and the
memoizer-tracking run: identical escaped exceptions and buffers, or
identical normal-completion buffers with the tracking run's exhausted set
satisfying the lex invariant relative to the prefix `P` of the call. -/
def MemoRel (P : List Nat) :
    Except (Err × List Nat × KState) (List Nat × KState) →
    Except (Err × List Nat × KState) (List Nat × KState) → Prop
  | .error (e1, b1, _), .error (e2, b2, _) => e1 = e2 ∧ b1 = b2
  | .ok (b1, st1'), .ok (b2, st2') =>
      b1 = b2 ∧ st1'.exhausted = none ∧
      ∃ E', st2'.exhausted = some E' ∧
        ∀ e ∈ E', LexBefore e P ∨ e = [] ∨ IsPrefixOf P e
  | _, _ => False


theorem solveLoopF_cons_keyErr {recur : Nat → List Nat → Nat → KState → SolveResult}
    {ptn : List (Nat × List Nat)} {start next : Nat} {rest : List Nat}
    {buf : List Nat} {n : Nat} {st : KState}
    (hlk : alookup ptn next = none) :
    solveLoopF recur ptn start (next :: rest) buf n st =
      ([], .error (.keyError, buf, st)) := by
  simp only [solveLoopF, hlk]

theorem solveLoopF_cons_idxErr {recur : Nat → List Nat → Nat → KState → SolveResult}
    {ptn : List (Nat × List Nat)} {start next : Nat} {rest : List Nat}
    {buf : List Nat} {n : Nat} {st : KState} {nodes : List Nat}
    (hlk : alookup ptn next = some nodes)
    (hhd : (nodes.filter (fun p => p != start)).head? = none) :
    solveLoopF recur ptn start (next :: rest) buf n st =
      ([], .error (.indexError, buf, st)) := by
  simp only [solveLoopF, hlk, hhd]

theorem solveLoopF_cons_wsErr {recur : Nat → List Nat → Nat → KState → SolveResult}
    {ptn : List (Nat × List Nat)} {start next : Nat} {rest : List Nat}
    {buf : List Nat} {n : Nat} {st : KState} {nodes : List Nat} {next_loc : Nat}
    {e : Err}
    (hlk : alookup ptn next = some nodes)
    (hhd : (nodes.filter (fun p => p != start)).head? = some next_loc)
    (hws : bytearray_set buf n next = .error e) :
    solveLoopF recur ptn start (next :: rest) buf n st =
      ([], .error (e, buf, st)) := by
  simp only [solveLoopF, hlk, hhd, hws]

theorem solveLoopF_cons_recErr {recur : Nat → List Nat → Nat → KState → SolveResult}
    {ptn : List (Nat × List Nat)} {start next : Nat} {rest : List Nat}
    {buf : List Nat} {n : Nat} {st : KState} {nodes : List Nat} {next_loc : Nat}
    {buf1 : List Nat} {ys : List (List Nat)} {e : Err × List Nat × KState}
    (hlk : alookup ptn next = some nodes)
    (hhd : (nodes.filter (fun p => p != start)).head? = some next_loc)
    (hws : bytearray_set buf n next = .ok buf1)
    (hcond : (truthyExhausted st.exhausted && path_is_pruned st.exhausted buf1) = false)
    (hrec : recur next_loc buf1 (n + 1) st = (ys, .error e)) :
    solveLoopF recur ptn start (next :: rest) buf n st = (ys, .error e) := by
  simp only [solveLoopF, hlk, hhd, hws, hcond, Bool.false_eq_true, if_false, hrec]

theorem solveLoopF_cons_okErr {recur : Nat → List Nat → Nat → KState → SolveResult}
    {ptn : List (Nat × List Nat)} {start next : Nat} {rest : List Nat}
    {buf : List Nat} {n : Nat} {st : KState} {nodes : List Nat} {next_loc : Nat}
    {buf1 : List Nat} {ys : List (List Nat)} {b : List Nat} {st' : KState} {e : Err}
    (hlk : alookup ptn next = some nodes)
    (hhd : (nodes.filter (fun p => p != start)).head? = some next_loc)
    (hws : bytearray_set buf n next = .ok buf1)
    (hcond : (truthyExhausted st.exhausted && path_is_pruned st.exhausted buf1) = false)
    (hrec : recur next_loc buf1 (n + 1) st = (ys, .ok (b, st')))
    (hws0 : bytearray_set b n 0 = .error e) :
    solveLoopF recur ptn start (next :: rest) buf n st =
      (ys, .error (e, b, st')) := by
  simp only [solveLoopF, hlk, hhd, hws, hcond, Bool.false_eq_true, if_false, hrec, hws0]

theorem solveLoopF_cons_okOk {recur : Nat → List Nat → Nat → KState → SolveResult}
    {ptn : List (Nat × List Nat)} {start next : Nat} {rest : List Nat}
    {buf : List Nat} {n : Nat} {st : KState} {nodes : List Nat} {next_loc : Nat}
    {buf1 : List Nat} {ys : List (List Nat)} {b : List Nat} {st' : KState}
    {buf3 : List Nat}
    (hlk : alookup ptn next = some nodes)
    (hhd : (nodes.filter (fun p => p != start)).head? = some next_loc)
    (hws : bytearray_set buf n next = .ok buf1)
    (hcond : (truthyExhausted st.exhausted && path_is_pruned st.exhausted buf1) = false)
    (hrec : recur next_loc buf1 (n + 1) st = (ys, .ok (b, st')))
    (hws0 : bytearray_set b n 0 = .ok buf3) :
    solveLoopF recur ptn start (next :: rest) buf n st =
      (ys ++ (solveLoopF recur ptn start rest buf3 n st').1,
        (solveLoopF recur ptn start rest buf3 n st').2) := by
  simp only [solveLoopF, hlk, hhd, hws, hcond, Bool.false_eq_true, if_false, hrec, hws0]

theorem solveLoopF_memoNeutral
    (ptn : List (Nat × List Nat))
    (recur : Nat → List Nat → Nat → KState → SolveResult)
    (hcmp : ∀ s b k st1 st2 E,
      st1.exhausted = none → st2.exhausted = some E →
      (∀ i, ∀ h : i < b.length, k ≤ i → b.get ⟨i, h⟩ = 0) →
      (∀ x ∈ b.take k, x ≠ 0) →
      (∀ e ∈ E, LexBefore e (b.take k) ∨ e = []) →
      (recur s b k st1).1 = (recur s b k st2).1 ∧
      MemoRel (b.take k) (recur s b k st1).2 (recur s b k st2).2)
    (hrecbuf : ∀ s b k st0,
      (∀ i, ∀ h : i < b.length, k ≤ i → b.get ⟨i, h⟩ = 0) →
      ∀ b' st', (recur s b k st0).2 = .ok (b', st') → b' = b)
    (start : Nat) :
    ∀ (steps : List Nat) (buf : List Nat) (n : Nat) (st1 st2 : KState)
      (E : List (List Nat)),
      st1.exhausted = none → st2.exhausted = some E →
      (∀ i, ∀ h : i < buf.length, n ≤ i → buf.get ⟨i, h⟩ = 0) →
      (∀ x ∈ buf.take n, x ≠ 0) →
      List.Sorted (· < ·) steps →
      (∀ p ∈ steps, buf.contains p = false) →
      (∀ e ∈ E, e = [] ∨ ((LexBefore e (buf.take n) ∨ IsPrefixOf (buf.take n) e) ∧
        ∀ q ∈ steps, LexBefore e (buf.take n ++ [q]))) →
      (solveLoopF recur ptn start steps buf n st1).1 =
        (solveLoopF recur ptn start steps buf n st2).1 ∧
      MemoRel (buf.take n) (solveLoopF recur ptn start steps buf n st1).2
        (solveLoopF recur ptn start steps buf n st2).2 := by
  intro steps
  induction steps with
  | nil =>
    intro buf n st1 st2 E h1 h2 hz hpz hsort hcont hinv
    refine ⟨rfl, rfl, h1, E, h2, ?_⟩
    intro e he
    rcases hinv e he with hnil | ⟨hglob, _⟩
    · exact Or.inr (Or.inl hnil)
    · rcases hglob with hlex | hpre
      · exact Or.inl hlex
      · exact Or.inr (Or.inr hpre)
  | cons next rest ih =>
    intro buf n st1 st2 E h1 h2 hz hpz hsort hcont hinv
    rcases hlk : alookup ptn next with _ | nodes
    · rw [solveLoopF_cons_keyErr hlk, solveLoopF_cons_keyErr hlk]
      exact ⟨rfl, rfl, rfl⟩
    rcases hhd : (nodes.filter (fun p => p != start)).head? with _ | next_loc
    · rw [solveLoopF_cons_idxErr hlk hhd, solveLoopF_cons_idxErr hlk hhd]
      exact ⟨rfl, rfl, rfl⟩
    rcases hws : bytearray_set buf n next with e | buf1
    · rw [solveLoopF_cons_wsErr hlk hhd hws, solveLoopF_cons_wsErr hlk hhd hws]
      exact ⟨rfl, rfl, rfl⟩
    rcases bytearray_set_ok hws with ⟨hbuf1, hn, _⟩
    have hcontnext := hcont next (List.mem_cons_self _ _)
    have hnext0 : next ≠ 0 := by
      intro h0
      subst h0
      have hg : buf.get ⟨n, hn⟩ = 0 := hz n hn (le_refl n)
      have hm : buf.get ⟨n, hn⟩ ∈ buf := List.get_mem buf n hn
      rw [hg] at hm
      rw [← List.elem_iff] at hm
      have hcf : List.elem 0 buf = false := hcontnext
      rw [hcf] at hm
      exact Bool.noConfusion hm
    have hz1 : ∀ i, ∀ h : i < buf1.length, n + 1 ≤ i → buf1.get ⟨i, h⟩ = 0 := by
      subst hbuf1; exact zeroSuffix_set hz
    have htake1 : buf1.take (n + 1) = buf.take n ++ [next] := by
      rw [hbuf1]; exact take_succ_set hn
    have hpz1 : ∀ x ∈ buf1.take (n + 1), x ≠ 0 := by
      rw [htake1]
      intro x hx
      rcases List.mem_append.mp hx with hx1 | hx1
      · exact hpz x hx1
      · simp only [List.mem_singleton] at hx1
        subst hx1
        exact hnext0
    have hPlen : (buf.take n).length = n := List.length_take_of_le (by omega)
    have hINVnext : ∀ e ∈ E, LexBefore e (buf.take n ++ [next]) ∨ e = [] := by
      intro e he
      rcases hinv e he with hnil | ⟨_, hq⟩
      · exact Or.inr hnil
      · exact Or.inl (hq next (List.mem_cons_self _ _))
    have hINV1 : ∀ e ∈ E, LexBefore e (buf1.take (n + 1)) ∨ e = [] := by
      rw [htake1]; exact hINVnext
    have hprune2 : path_is_pruned st2.exhausted buf1 = false := by
      rw [h2]
      have hf1 : nonzeroCount buf1 = (buf.take n).length + 1 := by
        rw [hPlen, hbuf1]
        exact nonzeroCount_set hn hz hpz hnext0
      have hf2 : ∀ k ≤ (buf.take n).length + 1,
          buf1.take k = (buf.take n ++ [next]).take k := by
        rw [hPlen, hbuf1]
        exact buf1_take_eq hn
      exact path_is_pruned_false hf1 hf2 hINVnext
    have hcond1 : (truthyExhausted st1.exhausted &&
        path_is_pruned st1.exhausted buf1) = false := by
      rw [h1]
      rfl
    have hcond2 : (truthyExhausted st2.exhausted &&
        path_is_pruned st2.exhausted buf1) = false := by
      rw [hprune2, Bool.and_false]
    rcases hcmp next_loc buf1 (n + 1) st1 st2 E h1 h2 hz1 hpz1 hINV1 with ⟨hyeq, hrel⟩
    rcases hr1 : recur next_loc buf1 (n + 1) st1 with ⟨ys1, out1⟩
    rcases hr2 : recur next_loc buf1 (n + 1) st2 with ⟨ys2, out2⟩
    rw [hr1, hr2] at hyeq
    simp only at hyeq
    rw [hr1, hr2] at hrel
    simp only at hrel
    subst hyeq
    rcases out1 with e1 | ⟨b1, st1'⟩ <;> rcases out2 with e2 | ⟨b2, st2'⟩
    · rcases e1 with ⟨er1, eb1, es1⟩
      rcases e2 with ⟨er2, eb2, es2⟩
      rcases hrel with ⟨her, heb⟩
      subst her
      subst heb
      rw [solveLoopF_cons_recErr hlk hhd hws hcond1 hr1,
        solveLoopF_cons_recErr hlk hhd hws hcond2 hr2]
      exact ⟨rfl, rfl, rfl⟩
    · exact (hrel : False).elim
    · exact (hrel : False).elim
    · rcases hrel with ⟨hbeq, hst1none, E', hst2some, hpost⟩
      subst hbeq
      have hb1 : b1 = buf1 := by
        have := hrecbuf next_loc buf1 (n + 1) st1 hz1 b1 st1'
        rw [hr1] at this
        exact this rfl
      rcases hws0 : bytearray_set b1 n 0 with e | buf3
      · rw [solveLoopF_cons_okErr hlk hhd hws hcond1 hr1 hws0,
          solveLoopF_cons_okErr hlk hhd hws hcond2 hr2 hws0]
        exact ⟨rfl, rfl, rfl⟩
      · rcases bytearray_set_ok hws0 with ⟨hbuf3, _, _⟩
        have hbuf3eq : buf3 = buf := by
          rw [hbuf3, hb1, hbuf1, List.set_set]
          exact set_get_self buf n hn (hz n hn (le_refl n))
        rw [solveLoopF_cons_okOk hlk hhd hws hcond1 hr1 hws0,
          solveLoopF_cons_okOk hlk hhd hws hcond2 hr2 hws0, hbuf3eq]
        have hINVrest : ∀ e ∈ E', e = [] ∨
            ((LexBefore e (buf.take n) ∨ IsPrefixOf (buf.take n) e) ∧
              ∀ q ∈ rest, LexBefore e (buf.take n ++ [q])) := by
          intro e he
          rcases hpost e he with hlex | hnil | hpre
          · rw [htake1] at hlex
            rcases lexBefore_parent hlex with hl | hp
            · refine Or.inr ⟨Or.inl hl, ?_⟩
              intro q hq
              have hlt : next < q := (List.sorted_cons.mp hsort).1 q hq
              exact lexBefore_sibling hlex hlt
            · refine Or.inr ⟨Or.inr hp, ?_⟩
              intro q hq
              have hlt : next < q := (List.sorted_cons.mp hsort).1 q hq
              exact lexBefore_sibling hlex hlt
          · exact Or.inl hnil
          · rw [htake1] at hpre
            refine Or.inr ⟨Or.inr (isPrefixOf_of_append_isPrefixOf hpre), ?_⟩
            intro q hq
            have hlt : next < q := (List.sorted_cons.mp hsort).1 q hq
            exact lexBefore_of_prefix_lt hpre hlt
        have hrest := ih buf n st1' st2' E' hst1none hst2some hz hpz
          hsort.of_cons
          (fun p hp => hcont p (List.mem_cons_of_mem _ hp)) hINVrest
        exact ⟨by rw [hrest.1], hrest.2⟩

theorem deadEndUpdate_exhausted_none {st : KState} (h : st.exhausted = none)
    (buf : List Nat) : (deadEndUpdate st buf).exhausted = none := by
  simp only [deadEndUpdate, h]

theorem deadEndUpdate_exhausted_some {st : KState} {E : List (List Nat)}
    (h : st.exhausted = some E) (buf : List Nat) :
    ∃ E2, (deadEndUpdate st buf).exhausted = some E2 ∧
      ∀ e ∈ E2, e ∈ E ∨ e = trimZeros buf := by
  simp only [deadEndUpdate, h]
  split
  · simp only [do_prune_exhausted_paths_list]
    split
    · exact ⟨setAdd E (trimZeros buf), rfl, fun e he => mem_setAdd.mp he⟩
    · refine ⟨prunedPathsList (setAdd E (trimZeros buf)), rfl, ?_⟩
      intro e he
      exact mem_setAdd.mp (prunedPathsList_subset he)
  · exact ⟨setAdd E (trimZeros buf), rfl, fun e he => mem_setAdd.mp he⟩

theorem solveFromAux_memoNeutral
    (ptn ntp : List (Nat × List Nat))
    (HND : ∀ pr ∈ ntp, pr.2.Nodup) :
    ∀ (fuel : Nat) (start : Nat) (buf : List Nat) (n : Nat) (st1 st2 : KState)
      (E : List (List Nat)),
      st1.exhausted = none → st2.exhausted = some E →
      (∀ i, ∀ h : i < buf.length, n ≤ i → buf.get ⟨i, h⟩ = 0) →
      (∀ x ∈ buf.take n, x ≠ 0) →
      (∀ e ∈ E, LexBefore e (buf.take n) ∨ e = []) →
      (solveFromAux ptn ntp fuel start buf n st1).1 =
        (solveFromAux ptn ntp fuel start buf n st2).1 ∧
      MemoRel (buf.take n) (solveFromAux ptn ntp fuel start buf n st1).2
        (solveFromAux ptn ntp fuel start buf n st2).2 := by
  intro fuel
  induction fuel with
  | zero =>
    intro start buf n st1 st2 E h1 h2 hz hpz hinv
    simp only [solveFromAux]
    exact ⟨trivial, rfl, rfl⟩
  | succ fuel ih =>
    intro start buf n st1 st2 E h1 h2 hz hpz hinv
    simp only [solveFromAux]
    by_cases hsol : n = ptn.length
    · simp only [if_pos hsol]
      refine ⟨trivial, rfl, h1, E, h2, ?_⟩
      intro e he
      rcases hinv e he with hlex | hnil
      · exact Or.inl hlex
      · exact Or.inr (Or.inl hnil)
    · simp only [if_neg hsol]
      rcases hlkn : alookup ntp start with _ | paths
      · simp only [hlkn]
        exact ⟨trivial, rfl, rfl⟩
      · simp only [hlkn]
        cases hemp : (paths.filter (fun p => !buf.contains p)).isEmpty
        · simp only [hemp, Bool.false_eq_true, if_false]
          have hnodup : (paths.filter (fun p => !buf.contains p)).Nodup :=
            List.Nodup.filter _ (HND (start, paths) (alookup_mem hlkn))
          refine solveLoopF_memoNeutral ptn
            (fun s b k s2 => solveFromAux ptn ntp fuel s b k s2)
            (fun s b k s1 s2 E' h1' h2' hz' hpz' hinv' =>
              ih s b k s1 s2 E' h1' h2' hz' hpz' hinv')
            (fun s b k st0 hz' b' st' hok =>
              solveFromAux_ok_buf fuel ptn ntp s b k st0 hz' b' st' hok)
            start _ buf n st1 st2 E h1 h2 hz hpz
            (sortNats_sorted_lt hnodup) ?_ ?_
          · intro p hp
            have hp' : p ∈ paths.filter (fun p => !buf.contains p) :=
              (List.perm_insertionSort _ _).mem_iff.mp hp
            have := (List.mem_filter.mp hp').2
            simp only [Bool.not_eq_true'] at this
            exact this
          · intro e he
            rcases hinv e he with hlex | hnil
            · refine Or.inr ⟨Or.inl hlex, ?_⟩
              intro q hq
              exact lexBefore_append_right hlex [q]
            · exact Or.inl hnil
        · simp only [hemp, if_true]
          refine ⟨trivial, rfl, deadEndUpdate_exhausted_none h1 buf, ?_⟩
          rcases deadEndUpdate_exhausted_some h2 buf with ⟨E2, hE2, hmem⟩
          refine ⟨E2, hE2, ?_⟩
          intro e he
          rcases hmem e he with hE | htrim
          · rcases hinv e hE with hlex | hnil
            · exact Or.inl hlex
            · exact Or.inr (Or.inl hnil)
          · rw [htrim, trimZeros_eq_take hz hpz]
            exact Or.inr (Or.inr ⟨[], List.append_nil _⟩)

/-- C2: the exhausted-prefix memoizer is result-neutral — amended: for a
single run of `solve_from` (one start node) on a graph whose per-node edge
lists are duplicate-free, starting from an empty exhausted set, the yielded
trails are identical whether the memoizer is disabled (`exhausted_paths =
None`) or enabled with any compaction threshold.  The original claim over
every *list* of start nodes is false: see the counterexample, where the set
recorded during the first start wrongly prunes the search of the second
start, because `path_is_pruned` tests literal step-sequence prefixes that
record the first start node implicitly. -/
theorem claim_C2_memoizer_result_neutral
    (ptn ntp : List (Nat × List Nat)) (start t1 t2 : Nat)
    (HND : ∀ pr ∈ ntp, pr.2.Nodup) :
    (solve_from ptn ntp start (initState (some []) t2)).1 =
      (solve_from ptn ntp start (initState none t1)).1 := by
  unfold solve_from
  have hz : ∀ i, ∀ h : i < (List.replicate ptn.length 0).length, 0 ≤ i →
      (List.replicate ptn.length 0).get ⟨i, h⟩ = 0 := by
    intro i h _
    simp
  have h := solveFromAux_memoNeutral ptn ntp HND (ptn.length + 1) start
    (List.replicate ptn.length 0) 0 (initState none t1) (initState (some []) t2)
    [] rfl rfl hz (by intro x hx; simp at hx) (by intro e he; simp at he)
  exact h.1.symm

/-- C2, original form refuted: on the three-edge graph `exPtn3` and the
start list `[1, 2]`, the enumerator with the memoizer disabled yields the
two complete trails `[1,2,3]` and `[2,1,3]`, but with the memoizer enabled
(empty initial set, threshold high enough that compaction never runs) it
yields nothing: the prefixes exhausted while searching from node 1 prune
the entire search from node 2. -/
theorem claim_C2_counterexample :
    (solve_from_multiple exPtn3 exNtp3 [1, 2] (initState none 1000)).1 =
      [[1, 2, 3], [2, 1, 3]] ∧
    (solve_from_multiple exPtn3 exNtp3 [1, 2] (initState (some []) 1000)).1 =
      [] := by
  constructor
  · decide
  · decide

theorem claim_C2_witness :
    (∀ pr ∈ exNtp3, pr.2.Nodup) ∧
    (solve_from exPtn3 exNtp3 1 (initState (some []) 1000)).1 =
      (solve_from exPtn3 exNtp3 1 (initState none 1000)).1 :=
  ⟨by decide, claim_C2_memoizer_result_neutral exPtn3 exNtp3 1 1000 1000 (by decide)⟩

/-! ## C8: normalization round-trip -/

/-- A valid map with 128 edges over 256 distinct node labels: edge 128
joins nodes 256 and 255, and edge `i+1` (for `i < 127`) joins nodes
`2i+1` and `2i+2`. -/
def bigPtn : List (Nat × List Nat) :=
  (128, [256, 255]) :: (List.range 127).map (fun i => (i + 1, [2 * i + 1, 2 * i + 2]))

/-- The node dict for `bigPtn`: node 1 lists every edge, the other 255
nodes list edge 1.  `_sanity_check_dicts` checks only key membership of the
listed ids, which holds. -/
def bigNtp : List (Nat × List Nat) :=
  (1, (List.range 128).map (fun i => i + 1)) ::
    (List.range 255).map (fun j => (j + 2, [1]))

set_option maxRecDepth 100000 in
/-- C8, refuted on totality: `bigPtn`/`bigNtp` passes `_sanity_check_dicts`
(128 edges, all listed ids are keys of the other dict), yet
`normalize_dicts` raises `KeyError` instead of returning a normalized pair:
the node translation table `dict(zip(range(1, 256), sorted(keys)))` silently
drops the 256th sorted node label, and translating edge 128's node list hits
the missing label. -/
theorem claim_C8_counterexample :
    sanity_check_dicts bigPtn bigNtp = .ok () ∧
    normalize_dicts bigPtn bigNtp = .error .keyError := by
  constructor
  · decide
  · rfl

theorem forall₂_lookup_eq_map {tab : List (Nat × Nat)} :
    ∀ {ids out : List Nat},
      List.Forall₂ (fun i v => lookupNat tab i = some v) ids out →
      out = ids.map (fun i => (lookupNat tab i).getD 0) := by
  intro ids out h
  induction h with
  | nil => rfl
  | cons hr hrest ih =>
    simp only [List.map_cons]
    rw [ih, hr]
    rfl

theorem backList_some_of {tab : List (Nat × Nat)} :
    ∀ {ids : List Nat}, (∀ i ∈ ids, ∃ v, lookupNat tab i = some v) →
      ∃ out, backList tab ids = some out ∧
        List.Forall₂ (fun i v => lookupNat tab i = some v) ids out := by
  intro ids
  induction ids with
  | nil => exact fun _ => ⟨[], rfl, List.Forall₂.nil⟩
  | cons i rest ih =>
    intro h
    rcases h i (List.mem_cons_self _ _) with ⟨v, hv⟩
    rcases ih (fun j hj => h j (List.mem_cons_of_mem _ hj)) with ⟨out, hout, hf⟩
    refine ⟨v :: out, ?_, List.Forall₂.cons hv hf⟩
    simp only [backList, hv, hout]

theorem translate_back_ok {optn ontp : List (Nat × List Nat)} :
    ∀ {d p : List (Nat × List Nat)},
      List.Forall₂ (fun pr pr' =>
        lookupNat (reverseTable (translationTable optn)) pr.1 = some pr'.1 ∧
        ∃ vs', translateList (reverseTable (translationTable ontp)) pr.2 = .ok vs' ∧
          pr'.2 = sortNats vs') d p →
      ∃ d', translate_dict_back (translationTable optn) (translationTable ontp)
          p = some d' ∧
        List.Forall₂ (fun pr pr' => pr.1 = pr'.1 ∧ List.Perm pr.2 pr'.2) d d' := by
  intro d p h
  induction h with
  | nil => exact ⟨[], rfl, List.Forall₂.nil⟩
  | @cons pr pr' dtl ptl hr hrest ih =>
    rcases pr with ⟨k, vs⟩
    rcases pr' with ⟨k', vsp⟩
    rcases hr with ⟨hkey, vs', htl, hval⟩
    subst hval
    have hk' : lookupNat (translationTable optn) k' = some k :=
      (reverseTable_lookup hkey).1
    have f2 := translateList_forall₂ htl
    have f2' : List.Forall₂
        (fun i v => lookupNat (translationTable ontp) i = some v) vs' vs :=
      List.Forall₂.flip (f2.imp (fun v i h => (reverseTable_lookup h).1))
    have hsome : ∀ i ∈ sortNats vs', ∃ v,
        lookupNat (translationTable ontp) i = some v := by
      intro i hi
      have hi' : i ∈ vs' := (List.perm_insertionSort _ _).mem_iff.mp hi
      rcases forall₂_mem_left f2' i hi' with ⟨v, _, hv⟩
      exact ⟨v, hv⟩
    rcases backList_some_of hsome with ⟨out, hbl, f2out⟩
    have hperm : List.Perm vs out := by
      rw [forall₂_lookup_eq_map f2out, forall₂_lookup_eq_map f2']
      exact (List.Perm.map _ (List.perm_insertionSort _ _)).symm
    rcases ih with ⟨rest', hrest', f2rest⟩
    refine ⟨(k, out) :: rest', ?_, List.Forall₂.cons ⟨rfl, hperm⟩ f2rest⟩
    simp only [translate_dict_back, hk', hbl, hrest']

/-- C8: normalize-then-translate-back round trip — amended: whenever
`normalize_dicts` succeeds, translating the normalized dicts back through
the returned forward translation tables succeeds and reproduces the
original dicts entry by entry: identical keys in the original order, and
each value list a permutation of the original (normalization sorts each
translated value tuple).  The original "for every valid input" claim fails:
`normalize_dicts` is not total on validated inputs (see the counterexample,
where a valid 256-node map passes validation but normalization raises
`KeyError`). -/
theorem claim_C8_normalize_roundtrip
    (optn ontp p n : List (Nat × List Nat)) (px nx pxr nxr : List (Nat × Nat))
    (hnorm : normalize_dicts optn ontp = .ok (p, n, px, nx, pxr, nxr)) :
    ∃ p' n', translate_dict_back px nx p = some p' ∧
      translate_dict_back nx px n = some n' ∧
      List.Forall₂ (fun pr pr' => pr.1 = pr'.1 ∧ List.Perm pr.2 pr'.2) optn p' ∧
      List.Forall₂ (fun pr pr' => pr.1 = pr'.1 ∧ List.Perm pr.2 pr'.2) ontp n' := by
  rcases normalize_dicts_ok_inv hnorm with ⟨_, hpx, hnx, _, _, htrp, htrn⟩
  subst hpx
  subst hnx
  rcases translate_back_ok (translateEntries_forall₂ htrp) with ⟨p', hp', f2p⟩
  rcases translate_back_ok (translateEntries_forall₂ htrn) with ⟨n', hn', f2n⟩
  exact ⟨p', n', hp', hn', f2p, f2n⟩

theorem claim_C8_witness :
    ∃ p' n', translate_dict_back idTab3 idTab3 exPtn3 = some p' ∧
      translate_dict_back idTab3 idTab3 exNtp3 = some n' ∧
      List.Forall₂ (fun pr pr' => pr.1 = pr'.1 ∧ List.Perm pr.2 pr'.2) exPtn3 p' ∧
      List.Forall₂ (fun pr pr' => pr.1 = pr'.1 ∧ List.Perm pr.2 pr'.2) exNtp3 n' :=
  claim_C8_normalize_roundtrip exPtn3 exNtp3 exPtn3 exNtp3
    idTab3 idTab3 idTab3 idTab3 (by rfl)
